import Mathlib

/-!
Verification development for the JBSH editor's document reconstruction and
validation pipeline.  JavaScript strings are modelled as `List Char`; the
relevant functions of the repository (JSON structural repair, the resilient
extraction client, finalization, the manual no-AI path, the integrity
validator's coverage metric, and the content classifier / figure layout
engine) are embedded as executable Lean definitions, and the specification's
claims about them are settled as theorems at the end of the file.
-/

namespace JBSH

/-- JavaScript strings, modelled as lists of characters. -/
abbrev Str := List Char

/-- Convert a Lean string literal to the `Str` model. -/
def str (s : String) : Str := s.data

/-- The whitespace class used by JavaScript `trim`, `\s` and `split(/\s+/)`
(ASCII part; the sources only ever deal in ASCII whitespace). -/
def isWsChar (c : Char) : Bool :=
  c == ' ' || c == '\t' || c == '\n' || c == '\r' || c == '\x0b' || c == '\x0c'

/-- `\w` of JavaScript regexes: ASCII letters, digits and underscore. -/
def isWordChar (c : Char) : Bool :=
  ('a' ≤ c && c ≤ 'z') || ('A' ≤ c && c ≤ 'Z') || ('0' ≤ c && c ≤ '9') || c == '_'

/-- ASCII decimal digit (`\d`). -/
def isDigitChar (c : Char) : Bool := '0' ≤ c && c ≤ '9'

/-- ASCII lowercase letter (`[a-z]`). -/
def isLowerChar (c : Char) : Bool := 'a' ≤ c && c ≤ 'z'

/-- Drop leading JavaScript whitespace. -/
def trimLeft (l : Str) : Str := l.dropWhile isWsChar

/-- Drop trailing JavaScript whitespace. -/
def trimRight (l : Str) : Str := (l.reverse.dropWhile isWsChar).reverse

/-- JavaScript `String.prototype.trim`. -/
def jsTrim (l : Str) : Str := trimRight (trimLeft l)

/-- Is `pat` a contiguous sublist starting at the head? -/
def hasPre (pat l : Str) : Bool :=
  match pat, l with
  | [], _ => true
  | _ :: _, [] => false
  | p :: ps, c :: cs => p == c && hasPre ps cs

/-- JavaScript `String.prototype.includes`. -/
def containsSub (pat : Str) : Str → Bool
  | [] => hasPre pat []
  | c :: cs => hasPre pat (c :: cs) || containsSub pat cs

/-- `text.replace(/pat/g, repl)` for a literal nonempty pattern: left-to-right,
non-overlapping replacement, as the JavaScript regexp engine performs it.
`fuel` only bounds the recursion; callers pass the input length. -/
def replaceAllF (pat repl : Str) : Nat → Str → Str
  | 0, l => l
  | _ + 1, [] => []
  | fuel + 1, c :: cs =>
    if hasPre pat (c :: cs) ∧ pat ≠ [] then
      repl ++ replaceAllF pat repl fuel ((c :: cs).drop pat.length)
    else
      c :: replaceAllF pat repl fuel cs

/-- `text.replace(/pat/g, repl)` for a literal pattern. -/
def replaceAll (pat repl l : Str) : Str := replaceAllF pat repl (l.length + 1) l

/-- Scan for the first `'>'`; returns the characters before it and the
characters after it, or `none` when the list has no `'>'`. -/
def splitAtGt : Str → Option (Str × Str)
  | [] => none
  | c :: cs =>
    if c = '>' then some ([], cs)
    else match splitAtGt cs with
      | some (ins, rest) => some (c :: ins, rest)
      | none => none

/-- `text.replace(/<[^>]*>/g, repl)` (`star := true`) or
`text.replace(/<[^>]+>/g, repl)` (`star := false`): each HTML-tag-shaped run
is replaced by `repl`; a `'<'` with no matching `'>'` (or, for the `+`
variant, an immediately closed `"<>"`) is kept verbatim. -/
def replTagsF (star : Bool) (repl : Str) : Nat → Str → Str
  | 0, l => l
  | _ + 1, [] => []
  | fuel + 1, c :: cs =>
    if c = '<' then
      match splitAtGt cs with
      | some (ins, rest) =>
        if star ∨ ins ≠ [] then repl ++ replTagsF star repl fuel rest
        else c :: replTagsF star repl fuel cs
      | none => c :: replTagsF star repl fuel cs
    else c :: replTagsF star repl fuel cs

/-- Replace HTML-tag-shaped runs (see `replTagsF`). -/
def replTags (star : Bool) (repl : Str) (l : Str) : Str :=
  replTagsF star repl (l.length + 1) l

/-- Collapse every maximal run of whitespace to a single space:
`text.replace(/\s+/g, ' ')`. -/
def collapseWsF : Nat → Str → Str
  | 0, l => l
  | _ + 1, [] => []
  | fuel + 1, c :: cs =>
    if isWsChar c then ' ' :: collapseWsF fuel (cs.dropWhile isWsChar)
    else c :: collapseWsF fuel cs

/-- `text.replace(/\s+/g, ' ')`. -/
def collapseWs (l : Str) : Str := collapseWsF (l.length + 1) l

/-!
## JSON structural repair (`attemptJsonRepair`, src/unnamed/part_003 lines 57-105)

The source runs two passes over the trimmed input: a quote-counting pass with
an escape flag, then a bracket pass that tracks a stack of expected closers
while skipping string contents.  Both passes are embedded as `foldl`s over
explicit state records.
-/

/-- State of the quote-counting pass: number of unescaped quotes seen and the
escape flag. -/
structure QS where
  cnt : Nat
  esc : Bool
deriving DecidableEq, Repr

/-- One character of the quote-counting pass (part_003 lines 61-67):
a backslash outside an escape sets the flag and skips the counting; an
unescaped quote is counted; anything else clears the flag. -/
def qstep (s : QS) (c : Char) : QS :=
  if c = '\\' ∧ s.esc = false then ⟨s.cnt, true⟩
  else if c = '\"' ∧ s.esc = false then ⟨s.cnt + 1, false⟩
  else ⟨s.cnt, false⟩

/-- Quote-counting pass over a string. -/
def qscan (l : Str) : QS := l.foldl qstep ⟨0, false⟩

/-- State of the bracket pass: stack of expected closing characters (head is
the top, i.e. the closer of the most recently opened bracket), the in-string
flag, and the escape flag. -/
structure BS where
  stack : List Char
  inStr : Bool
  esc : Bool
deriving DecidableEq, Repr

/-- One character of the bracket pass (part_003 lines 78-97): unescaped quotes
toggle the in-string flag; outside strings and escapes, `{`/`[` push their
closer and a closer matching the stack top pops it. -/
def bstep (s : BS) (c : Char) : BS :=
  if c = '\\' ∧ s.esc = false then ⟨s.stack, s.inStr, true⟩
  else
    let inS := if c = '\"' ∧ s.esc = false then !s.inStr else s.inStr
    let st :=
      if inS = false ∧ s.esc = false then
        if c = '{' then '}' :: s.stack
        else if c = '[' then ']' :: s.stack
        else if c = '}' ∨ c = ']' then
          match s.stack with
          | e :: rest => if c = e then rest else s.stack
          | [] => s.stack
        else s.stack
      else s.stack
    ⟨st, inS, false⟩

/-- Bracket pass over a string, from the initial state. -/
def bscan (l : Str) : BS := l.foldl bstep ⟨[], false, false⟩

/-- `attemptJsonRepair` (part_003 lines 57-105): trim; append one closing
quote when the unescaped-quote count is odd; then append one closer for every
still-open bracket, innermost first (the source pops its stack, which is the
head-first order of `(bscan r1).stack` here). -/
def attemptJsonRepair (s : Str) : Str :=
  let t := jsTrim s
  let r1 := if (qscan t).cnt % 2 ≠ 0 then t ++ ['\"'] else t
  r1 ++ (bscan r1).stack

/-!
## A JSON validity checker

Modelled from the spec: the claims quantify over "syntactically-truncated-
but-otherwise-well-formed JSON" strings.  `JSON.parse` itself is outside the
repository, so well-formedness is embedded here as a standard RFC 8259
recursive-descent checker (fuel-bounded).  `parseValue fuel l` returns the
remaining input after one JSON value, or `none`.
-/

/-- Hexadecimal digit. -/
def isHexChar (c : Char) : Bool :=
  isDigitChar c || ('a' ≤ c && c ≤ 'f') || ('A' ≤ c && c ≤ 'F')

/-- Consume the body of a JSON string after the opening quote, returning the
input after the closing quote. -/
def parseStringBody : Nat → Str → Option Str
  | 0, _ => none
  | _ + 1, [] => none
  | fuel + 1, c :: cs =>
    if c = '\"' then some cs
    else if c = '\\' then
      match cs with
      | [] => none
      | e :: cs' =>
        if e = '\"' ∨ e = '\\' ∨ e = '/' ∨ e = 'b' ∨ e = 'f' ∨ e = 'n' ∨ e = 'r' ∨ e = 't' then
          parseStringBody fuel cs'
        else if e = 'u' then
          match cs' with
          | h1 :: h2 :: h3 :: h4 :: cs'' =>
            if isHexChar h1 && isHexChar h2 && isHexChar h3 && isHexChar h4 then
              parseStringBody fuel cs''
            else none
          | _ => none
        else none
    else if c.toNat < 32 then none
    else parseStringBody fuel cs

/-- Consume the digits/fraction/exponent of a JSON number after an optional
leading minus sign. -/
def parseNumberBody (l : Str) : Option Str :=
  let intPart :=
    match l with
    | '0' :: rest => some rest
    | c :: rest =>
      if isDigitChar c && c ≠ '0' then some (rest.dropWhile isDigitChar) else none
    | [] => none
  match intPart with
  | none => none
  | some r1 =>
    let r2 :=
      match r1 with
      | '.' :: d :: rest =>
        if isDigitChar d then some (rest.dropWhile isDigitChar) else none
      | _ => some r1
    match r2 with
    | none => none
    | some r2' =>
      match r2' with
      | e :: rest =>
        if e = 'e' ∨ e = 'E' then
          let rest' :=
            match rest with
            | s :: rest'' => if s = '+' ∨ s = '-' then rest'' else rest
            | [] => rest
          match rest' with
          | d :: rest'' =>
            if isDigitChar d then some (rest''.dropWhile isDigitChar) else none
          | [] => none
        else some r2'
      | [] => some r2'

mutual

/-- Consume one JSON value (with surrounding whitespace handled by callers
for the leading side). -/
def parseValue : Nat → Str → Option Str
  | 0, _ => none
  | fuel + 1, l =>
    match l.dropWhile isWsChar with
    | [] => none
    | c :: cs =>
      if c = '\"' then parseStringBody (cs.length + 1) cs
      else if c = '{' then parseObjectBody fuel (cs.dropWhile isWsChar) true
      else if c = '[' then parseArrayBody fuel (cs.dropWhile isWsChar) true
      else if c = 't' then
        match cs with
        | 'r' :: 'u' :: 'e' :: rest => some rest
        | _ => none
      else if c = 'f' then
        match cs with
        | 'a' :: 'l' :: 's' :: 'e' :: rest => some rest
        | _ => none
      else if c = 'n' then
        match cs with
        | 'u' :: 'l' :: 'l' :: rest => some rest
        | _ => none
      else if c = '-' then parseNumberBody cs
      else if isDigitChar c then parseNumberBody (c :: cs)
      else none

/-- Consume the members of a JSON object after `{` (and after a separating
comma when `first = false`), including the closing `}`. -/
def parseObjectBody : Nat → Str → Bool → Option Str
  | 0, _, _ => none
  | _ + 1, [], _ => none
  | fuel + 1, c :: cs, first =>
    if c = '}' ∧ first = true then some cs
    else if c = '\"' then
      match parseStringBody (cs.length + 1) cs with
      | none => none
      | some afterKey =>
        match afterKey.dropWhile isWsChar with
        | ':' :: afterColon =>
          match parseValue fuel afterColon with
          | none => none
          | some afterVal =>
            match afterVal.dropWhile isWsChar with
            | '}' :: rest => some rest
            | ',' :: rest => parseObjectBody fuel (rest.dropWhile isWsChar) false
            | _ => none
        | _ => none
    else none

/-- Consume the elements of a JSON array after `[` (and after a separating
comma when `first = false`), including the closing `]`. -/
def parseArrayBody : Nat → Str → Bool → Option Str
  | 0, _, _ => none
  | _ + 1, [], _ => none
  | fuel + 1, l@(c :: _), first =>
    if c = ']' ∧ first = true then some l.tail
    else
      match parseValue fuel l with
      | none => none
      | some afterVal =>
        match afterVal.dropWhile isWsChar with
        | ']' :: rest => some rest
        | ',' :: rest => parseArrayBody fuel (rest.dropWhile isWsChar) false
        | _ => none

end

/-- A string is well-formed JSON when it is exactly one JSON value surrounded
by whitespace. -/
def jsonValid (l : Str) : Bool :=
  match parseValue (l.length + 1) l with
  | some rest => (rest.dropWhile isWsChar).isEmpty
  | none => false

/-- Modelled from the spec: a "syntactically-truncated-but-otherwise-
well-formed JSON string" is a proper prefix of some well-formed JSON
document. -/
def TruncatedWellFormedJson (s : Str) : Prop :=
  ∃ d u, jsonValid d = true ∧ u ≠ [] ∧ s ++ u = d

/-!
## The resilient extraction client (src/unnamed/part_003 lines 108-278)

`JSON.parse`-plus-cast is external to the repository, so the client is
parameterised by `jsParse : Str → Option RawManuscript` (returning the parsed
object's fields, absent fields as `none`), and the generative backend by an
oracle `Str → Nat → BResp` giving the response of each (model, attempt) call.
Wall-clock dates and `Math.random` are parameterised by `Env`.
-/

/-- An author object as returned by the backend's JSON. -/
structure RawAuthor where
  name : Str
  affiliation : Str
  email : Option Str := none
deriving DecidableEq, Repr

/-- A section object as returned by the backend's JSON. -/
structure RawSection where
  heading : Str
  content : Str
deriving DecidableEq, Repr

/-- A figure record (`ManuscriptFigure` in types.ts). -/
structure ManuscriptFigure where
  id : Str
  fileUrl : Str
  caption : Str
deriving DecidableEq, Repr

/-- The object produced by `JSON.parse` on a backend response, with every
field optional (`none` models a missing/undefined field). -/
structure RawManuscript where
  title : Option Str := none
  authors : Option (List RawAuthor) := none
  abstract : Option Str := none
  keywords : Option (List Str) := none
  sections : Option (List RawSection) := none
  references : Option (List Str) := none
  doi : Option Str := none
  volume : Option Str := none
  issue : Option Str := none
  pages : Option Str := none
  yearField : Option Str := none
  figures : Option (List ManuscriptFigure) := none
deriving DecidableEq, Repr

/-- The `ManuscriptData` value returned by the service: content fields as the
backend produced them, publication metadata always set by finalization. -/
structure FinalDoc where
  title : Option Str
  authors : Option (List RawAuthor)
  abstract : Option Str
  keywords : Option (List Str)
  sections : Option (List RawSection)
  references : Option (List Str)
  doi : Str
  volume : Str
  issue : Str
  year : Str
  pages : Str
  receivedDate : Str
  acceptedDate : Str
  publishedDate : Str
  figures : List ManuscriptFigure
  logoUrl : Str
  loaNumber : Str
  loaDate : Str
  loaBody : Str
deriving DecidableEq, Repr

/-- The impure inputs of finalization: `new Date().getFullYear().toString()`,
`new Date().toLocaleDateString('en-GB', ...)` and the four random digits of
the LoA number. -/
structure Env where
  yearStr : Str
  todayStr : Str
  randDigits : Str
deriving DecidableEq, Repr

/-- JavaScript truthiness fallback `o || d` for an optional string (absent and
empty strings are falsy). -/
def orDefault (o : Option Str) (d : Str) : Str :=
  match o with
  | none => d
  | some s => if s = [] then d else s

/-- `generateLoaBody` (part_003 lines 39-53): the letter-of-acceptance HTML
template instantiated with title, volume, issue and year. -/
def generateLoaBody (title vol issue year : Str) : Str :=
  str "\n<p>Dear Author(s),</p>\n<p>We are pleased to inform you that your manuscript titled:</p>\n<div style=\"background-color: #f8fafc; padding: 12px; border: 1px solid #e2e8f0; border-radius: 4px; margin: 12px 0; font-style: italic; font-weight: bold; text-align: center; font-size: 0.9em;\">\n    \"" ++
  title ++
  str "\"\n</div>\n<p>\n    Has been <strong>ACCEPTED</strong> for publication in the <strong>Journal of Biomedical Sciences and Health (JBSH)</strong>, \n    Volume " ++
  vol ++ str ", Issue " ++ issue ++ str ", " ++ year ++
  str ".\n</p>\n<p>\n    The manuscript has gone through a peer-review process, and our reviewers have recommended it for publication. \n    We appreciate your contribution to the biomedical and health sciences community.\n</p>\n"

/-- The constant DOI placeholder written by finalization. -/
def doiPlaceholder : Str := str "10.xxxxx/jbsh.vX.iX.xxxx"

/-- The constant logo URL written by finalization. -/
def logoPlaceholder : Str :=
  str "https://raw.githubusercontent.com/stackblitz/stackblitz-images/main/jbsh-logo-placeholder.png"

/-- `finalizeData` (part_003 lines 255-278): spread the parsed object, then
set every publication-metadata field to its default. -/
def finalizeData (env : Env) (parsed : RawManuscript) : FinalDoc :=
  { title := parsed.title
    authors := parsed.authors
    abstract := parsed.abstract
    keywords := parsed.keywords
    sections := parsed.sections
    references := parsed.references
    doi := doiPlaceholder
    volume := str "3"
    issue := str "1"
    year := env.yearStr
    pages := str "1-12"
    receivedDate := env.todayStr
    acceptedDate := env.todayStr
    publishedDate := env.todayStr
    figures := []
    logoUrl := logoPlaceholder
    loaNumber := str "JBSH/" ++ env.yearStr ++ str "/LOA/" ++ env.randDigits
    loaDate := env.todayStr
    loaBody := generateLoaBody (orDefault parsed.title (str "Untitled"))
      (str "3") (str "1") env.yearStr }

/-- The placeholder backfill applied after a successful repair parse
(part_003 lines 212-217).  JavaScript truthiness: a missing or empty string is
replaced; a missing array is replaced, but a present empty array is kept. -/
def backfillRecovered (pr : RawManuscript) : RawManuscript :=
  { pr with
    title := if pr.title = none ∨ pr.title = some [] then
        some (str "Untitled (Recovered)") else pr.title
    sections := if pr.sections = none then
        some [⟨str "Partial Content",
              str "Content was truncated due to length. Please check the original doc."⟩]
      else pr.sections
    authors := if pr.authors = none then
        some [{ name := str "Unknown", affiliation := str "Unknown" }]
      else pr.authors
    keywords := if pr.keywords = none then some [] else pr.keywords
    references := if pr.references = none then some [] else pr.references
    abstract := if pr.abstract = none ∨ pr.abstract = some [] then
        some (str "Abstract not found or truncated.") else pr.abstract }

/-- `createManualManuscript` (part_003 lines 108-149): strip tags to
newlines, first nonempty line is the title, the rest joined by blank lines is
a single section body, all other fields are fixed defaults. -/
def createManualManuscript (env : Env) (text : Str) : FinalDoc :=
  let cleanText := jsTrim (replTags true ['\n'] text)
  let lines := (cleanText.splitOn '\n').filter (fun line => jsTrim line ≠ [])
  let title := match lines with
    | t :: _ => t
    | [] => str "Untitled Manuscript"
  let bodyContent :=
    let joined := List.intercalate (str "\n\n") (lines.drop 1)
    if joined = [] then str "Paste your manuscript content here..." else joined
  { title := some title
    authors := some [{ name := str "Author Name", affiliation := str "Affiliation",
                       email := some (str "email@example.com") }]
    abstract := some (str "Abstract content...")
    keywords := some [str "Keyword1", str "Keyword2"]
    sections := some [⟨str "Main Content", bodyContent⟩]
    references := some [str "Reference 1"]
    doi := doiPlaceholder
    volume := str "3"
    issue := str "1"
    year := env.yearStr
    pages := str "1-12"
    receivedDate := env.todayStr
    acceptedDate := env.todayStr
    publishedDate := env.todayStr
    figures := []
    logoUrl := logoPlaceholder
    loaNumber := str "JBSH/" ++ env.yearStr ++ str "/LOA/" ++ env.randDigits
    loaDate := env.todayStr
    loaBody := generateLoaBody title (str "3") (str "1") env.yearStr }

/-- Response of one backend call: a thrown error with its message, or a
response object whose `text` may be empty. -/
inductive BResp where
  | err (msg : Str)
  | ok (text : Str)
deriving DecidableEq, Repr

/-- Strip markdown code fences and trim (part_003 line 195). -/
def cleanFences (text : Str) : Str :=
  jsTrim (replaceAll (str "```") [] (replaceAll (str "```json") [] text))

/-- The first (fast, high-quota) candidate model of part_003 line 156. -/
def flashModel : Str := str "gemini-3-flash-preview"

/-- The second (fallback) candidate model of part_003 line 156. -/
def proModel : Str := str "gemini-3-pro-preview"

/-- The ordered candidate model list of part_003 line 156. -/
def modelsToTry : List Str := [flashModel, proModel]

/-- The fatal message thrown when repair fails on the last candidate model
(part_003 line 226). -/
def tooLongMsg : Str :=
  str "Manuscript is too long/complex for AI. Please try cutting it in half or use Manual Mode."

/-- The message of the final `throw` when no model succeeded and no error was
recorded (part_003 line 251). -/
def defaultFatalMsg : Str := str "AI processing failed. Please use Manual Mode."

/-- Result of one loop iteration of the attempt loop. -/
inductive AttemptOut where
  | success (d : FinalDoc)
  | breakOut (lastErr : Option Str)
  | continueLoop (lastErr : Option Str)
deriving Repr

/-- One iteration of the attempt loop (part_003 lines 182-247) for a given
model and attempt number, threading `lastError`.  A thrown error whose
message contains "429" or "RESOURCE_EXHAUSTED" retries after a backoff sleep;
other thrown errors break to the next model.  A non-empty response is parsed
directly, then parsed after structural repair; if both fail the iteration
throws the fatal message on the last model and otherwise falls through to the
next attempt.  An empty response throws (and hence breaks) on attempt 2. -/
def attemptStep (jsParse : Str → Option RawManuscript) (oracle : Str → Nat → BResp)
    (env : Env) (model : Str) (attempt : Nat) (lastErr : Option Str) : AttemptOut :=
  match oracle model attempt with
  | .err msg =>
    if containsSub (str "429") msg ∨ containsSub (str "RESOURCE_EXHAUSTED") msg then
      .continueLoop (some msg)
    else .breakOut (some msg)
  | .ok text =>
    if text ≠ [] then
      match jsParse (cleanFences text) with
      | some parsed => .success (finalizeData env parsed)
      | none =>
        match jsParse (attemptJsonRepair (cleanFences text)) with
        | some pr => .success (finalizeData env (backfillRecovered pr))
        | none =>
          if model = modelsToTry.getLastD [] then .breakOut (some tooLongMsg)
          else .continueLoop lastErr
    else
      if attempt = 2 then .breakOut (some (str "Empty response from AI"))
      else .continueLoop lastErr

/-- The two-iteration attempt loop for one model, returning the recovered
document (if any), the updated `lastError`, and the backend calls made. -/
def modelRun (jsParse : Str → Option RawManuscript) (oracle : Str → Nat → BResp)
    (env : Env) (model : Str) (lastErr : Option Str) :
    Option FinalDoc × Option Str × List (Str × Nat) :=
  match attemptStep jsParse oracle env model 1 lastErr with
  | .success d => (some d, lastErr, [(model, 1)])
  | .breakOut e => (none, e, [(model, 1)])
  | .continueLoop e =>
    match attemptStep jsParse oracle env model 2 e with
    | .success d => (some d, e, [(model, 1), (model, 2)])
    | .breakOut e' => (none, e', [(model, 1), (model, 2)])
    | .continueLoop e' => (none, e', [(model, 1), (model, 2)])

/-- The model loop of `parseManuscript`, over the remaining candidate models. -/
def goModels (jsParse : Str → Option RawManuscript) (oracle : Str → Nat → BResp)
    (env : Env) : List Str → Option Str → Except Str FinalDoc × List (Str × Nat)
  | [], lastErr => (.error (orDefault lastErr defaultFatalMsg), [])
  | m :: ms, lastErr =>
    match modelRun jsParse oracle env m lastErr with
    | (some d, _, tr) => (.ok d, tr)
    | (none, e, tr) =>
      let rest := goModels jsParse oracle env ms e
      (rest.1, tr ++ rest.2)

/-- `parseManuscript` (part_003 lines 151-252) as a function of the parse and
backend oracles: the outcome (returned document or thrown message) together
with the trace of backend calls made, in order. -/
def parseManuscript (jsParse : Str → Option RawManuscript) (oracle : Str → Nat → BResp)
    (env : Env) : Except Str FinalDoc × List (Str × Nat) :=
  goModels jsParse oracle env modelsToTry none

/-!
## The integrity validator's coverage metric (src/App.tsx lines 127-161)
-/

/-- `getWords` (App.tsx lines 128-139): strip tags and placeholders, drop
punctuation, collapse whitespace, trim, lowercase, split on spaces, and keep
only tokens longer than 2 characters. -/
def getWords (text : Str) : List Str :=
  let s1 := replTags true [' '] text
  let s2 := replaceAll (str "[FIGURE REMOVED]") [' '] s1
  let s3 := replaceAll (str "&nbsp;") [' '] s2
  let s4 := s3.filter (fun c => isWordChar c || isWsChar c)
  let s5 := collapseWs s4
  let s6 := jsTrim s5
  let s7 := s6.map Char.toLower
  (s7.splitOn ' ').filter (fun w => 2 < w.length)

/-- The generated-side fields that the validator concatenates. -/
structure ValDoc where
  title : Str
  abstract : Str
  keywords : List Str
  sections : List RawSection
  references : List Str
deriving DecidableEq, Repr

/-- The `[title, abstract, ...keywords, ...section contents, ...references]
.join(' ')` of App.tsx lines 142-148. -/
def genContent (g : ValDoc) : Str :=
  List.intercalate [' ']
    ([g.title, g.abstract] ++ g.keywords ++ g.sections.map RawSection.content ++ g.references)

/-- The number of original token occurrences whose token is present in the
generated word set (App.tsx lines 155-158). -/
def foundCount (ow gw : List Str) : Nat := (ow.filter (fun w => gw.contains w)).length

/-- `coveragePercent` (App.tsx lines 160-161):
`Math.min(100, origCount > 0 ? Math.round(found / origCount * 100) : 0)`,
with JavaScript numbers modelled as exact rationals and `Math.round` as
round-half-up. -/
def coveragePercent (original : Str) (g : ValDoc) : ℤ :=
  let ow := getWords original
  let gw := getWords (genContent g)
  let cov : ℤ :=
    if 0 < ow.length then ⌊(100 * (foundCount ow gw : ℚ) / (ow.length : ℚ)) + 1 / 2⌋
    else 0
  min 100 cov

/-!
## The content classifier and figure layout engine (src/unnamed/part_000
lines 86-182)

The engine builds an HTML string by appending one chunk per decision; the
embedding records the appended chunks as a list of `Block` values in the same
order, so adjacency in the output string is adjacency in the block list.
-/

/-- The math symbol class of the equation heuristic. -/
def mathChars : List Char := ['=', '≈', '≠', '≤', '≥', '±', '×', '÷']

/-- Case-insensitive literal prefix match; returns the remaining input. -/
def dropPrefixCI : Str → Str → Option Str
  | [], l => some l
  | _ :: _, [] => none
  | p :: ps, c :: cs => if p.toLower = c.toLower then dropPrefixCI ps cs else none

/-- `/^(Figure|Table)/i.test t`. -/
def startsFigTable (t : Str) : Bool :=
  (dropPrefixCI (str "figure") t).isSome || (dropPrefixCI (str "table") t).isSome

/-- `isEquation` (part_000 lines 89-99): strip tags, trim; between 2 and 150
characters, containing a math symbol, not a Figure/Table caption, and not
ending in a period. -/
def isEquation (line : Str) : Bool :=
  let t := jsTrim (replTags true [] line)
  if 150 < t.length then false
  else if t.length < 2 then false
  else
    (t.any fun c => mathChars.contains c) && !startsFigTable t &&
      !(t.getLast? == some '.')

/-- `/^\d+\.\s+[A-Z]/.test t`: digits, a dot, whitespace, then an uppercase
letter. -/
def numDotWsUpper (t : Str) : Bool :=
  let ds := t.takeWhile isDigitChar
  if ds = [] then false
  else match t.drop ds.length with
    | '.' :: r2 =>
      let ws := r2.takeWhile isWsChar
      if ws = [] then false
      else match r2.drop ws.length with
        | c :: _ => 'A' ≤ c && c ≤ 'Z'
        | [] => false
    | _ => false

/-- `/^[A-Z\s\W]+$/.test t`: nonempty, and no character is a lowercase ASCII
letter, a digit, or an underscore (the only word characters outside `A-Z`). -/
def allUpperSymbols (t : Str) : Bool :=
  !t.isEmpty && t.all fun c => !(isLowerChar c || isDigitChar c || c == '_')

/-- The main-heading test of part_000 line 120. -/
def isMainHeadingTest (t : Str) : Bool :=
  t.length < 100 && (numDotWsUpper t || allUpperSymbols t)

/-- Greedily count `(\.\d+)` groups. -/
def dotNumGroups : Nat → Str → Nat
  | 0, _ => 0
  | fuel + 1, l =>
    match l with
    | '.' :: r =>
      let ds := r.takeWhile isDigitChar
      if ds = [] then 0 else 1 + dotNumGroups fuel (r.drop ds.length)
    | _ => 0

/-- The sub-heading test of part_000 line 123: length below 100 and
`/^\d+(\.\d+)+/`. -/
def isSubHeadingTest (t : Str) : Bool :=
  t.length < 100 &&
    (let ds := t.takeWhile isDigitChar
     !ds.isEmpty && 0 < dotNumGroups (t.length + 1) (t.drop ds.length))

/-- Match the `Fig\.?` alternative of the citation pattern at the head of the
input: returns the match length and the captured digits. -/
def matchCitFig (l : Str) : Option (Nat × Str) :=
  match dropPrefixCI (str "fig") l with
  | some rest =>
    let dotLen := match rest with
      | '.' :: _ => 1
      | _ => 0
    let rest' := rest.drop dotLen
    let ws := rest'.takeWhile isWsChar
    let ds := (rest'.drop ws.length).takeWhile isDigitChar
    if ds = [] then none else some (3 + dotLen + ws.length + ds.length, ds)
  | none => none

/-- Match `(?:Figure|Fig\.?)\s*(\d+)` at the head of the input, with the
JavaScript engine's ordered-alternation behaviour: the `Figure` branch is
tried first, falling back to the `Fig\.?` branch. -/
def matchCitationAt (l : Str) : Option (Nat × Str) :=
  match dropPrefixCI (str "figure") l with
  | some rest =>
    let ws := rest.takeWhile isWsChar
    let ds := (rest.drop ws.length).takeWhile isDigitChar
    if ds = [] then matchCitFig l else some (6 + ws.length + ds.length, ds)
  | none => matchCitFig l

/-- All citation matches of `/(?:Figure|Fig\.?)\s*(\d+)/gi`, left to right
and non-overlapping, as numeric-id strings. -/
def findCitationsF : Nat → Str → List Str
  | 0, _ => []
  | _ + 1, [] => []
  | fuel + 1, l =>
    match matchCitationAt l with
    | some (len, ds) => ds :: findCitationsF fuel (l.drop len)
    | none => findCitationsF fuel l.tail

/-- All figure-citation ids of a text, in order. -/
def findCitations (l : Str) : List Str := findCitationsF (l.length + 1) l

/-- `content.split(/\n\n+/)`: split on maximal runs of at least two
newlines. -/
def splitBlankF : Nat → Str → Str → List Str
  | 0, acc, l => [acc.reverse ++ l]
  | _ + 1, acc, [] => [acc.reverse]
  | fuel + 1, acc, '\n' :: '\n' :: rest =>
    acc.reverse :: splitBlankF fuel [] (rest.dropWhile fun c => c == '\n')
  | fuel + 1, acc, c :: cs => splitBlankF fuel (c :: acc) cs

/-- `content.split(/\n\n+/)`. -/
def splitBlank (l : Str) : List Str := splitBlankF (l.length + 1) [] l

/-- Does the input start with `</p>` or `</P>`? -/
def isClosePAt : Str → Bool
  | '<' :: '/' :: c :: '>' :: _ => c == 'p' || c == 'P'
  | _ => false

/-- `content.split(/<\/p>/i)`. -/
def splitClosePF : Nat → Str → Str → List Str
  | 0, acc, l => [acc.reverse ++ l]
  | _ + 1, acc, [] => [acc.reverse]
  | fuel + 1, acc, l@(c :: cs) =>
    if isClosePAt l then acc.reverse :: splitClosePF fuel [] (l.drop 4)
    else splitClosePF fuel (c :: acc) cs

/-- `content.split(/<\/p>/i)`. -/
def splitCloseP (l : Str) : List Str := splitClosePF (l.length + 1) [] l

/-- `content.includes('</p>')` (part_000 line 104; case-sensitive). -/
def hasPTags (content : Str) : Bool := containsSub (str "</p>") content

/-- The candidate blocks of a section's content (part_000 lines 106-111):
split on paragraph markup when present, otherwise on blank-line runs, keeping
only parts with nonempty trim (and, in markup mode, restoring `</p>`). -/
def splitParts (content : Str) : List Str :=
  if hasPTags content then
    ((splitCloseP content).filter fun p => jsTrim p ≠ []).map fun p => p ++ str "</p>"
  else
    (splitBlank content).filter fun p => jsTrim p ≠ []

/-- One appended output chunk of the layout engine: the classified text chunk
of a candidate block, an inline figure chunk, or a trailing
additional-figures chunk. -/
inductive Block where
  | mainHeading (txt : Str)
  | subHeading (txt : Str)
  | equation (txt : Str)
  | paragraph (txt : Str)
  | htmlPart (part : Str)
  | htmlEquation (part : Str)
  | figureBlock (fig : ManuscriptFigure)
  | additionalFigure (fig : ManuscriptFigure)
deriving DecidableEq, Repr

/-- The figure-emission loop over the citation matches of one candidate block
(part_000 lines 150-171): for each cited id that is not yet placed and has a
matching figure, emit its figure chunk and mark the id placed. -/
def placeFigs (figures : List ManuscriptFigure) :
    List Str → List Str → List Block × List Str
  | [], placed => ([], placed)
  | id :: ids, placed =>
    if id ∈ placed then placeFigs figures ids placed
    else
      match figures.find? (fun f => f.id == id) with
      | some f =>
        let out := placeFigs figures ids (id :: placed)
        (.figureBlock f :: out.1, out.2)
      | none => placeFigs figures ids placed

/-- The classification of one candidate block (part_000 lines 115-147).  In
markup mode only the equation test is applied (the part is otherwise passed
through); in blank-line mode the precedence is main heading, sub-heading,
equation, paragraph. -/
def classifyPart (hasP : Bool) (part clean : Str) : Block :=
  if hasP then
    if isEquation clean then .htmlEquation part else .htmlPart part
  else if isMainHeadingTest clean then .mainHeading clean
  else if isSubHeadingTest clean then .subHeading clean
  else if isEquation clean then .equation clean
  else .paragraph clean

/-- Process one candidate block: skip it when its markup-stripped trim is
empty, otherwise emit its classified chunk followed by its figure chunks. -/
def partBlocks (hasP : Bool) (figures : List ManuscriptFigure) (part : Str)
    (placed : List Str) : List Block × List Str :=
  let clean := jsTrim (replTags false [] part)
  if clean = [] then ([], placed)
  else
    let out := placeFigs figures (findCitations clean) placed
    (classifyPart hasP part clean :: out.1, out.2)

/-- Process the candidate blocks of one section in order, threading the
placed-id set. -/
def partsBlocks (hasP : Bool) (figures : List ManuscriptFigure) :
    List Str → List Str → List Block × List Str
  | [], placed => ([], placed)
  | p :: ps, placed =>
    let o1 := partBlocks hasP figures p placed
    let o2 := partsBlocks hasP figures ps o1.2
    (o1.1 ++ o2.1, o2.2)

/-- `injectFigures` (part_000 lines 101-175) on one section's content,
producing the appended chunks and the updated placed-id set. -/
def injectFigures (content : Str) (figures : List ManuscriptFigure)
    (placed : List Str) : List Block × List Str :=
  partsBlocks (hasPTags content) figures (splitParts content) placed

/-- The per-section loop of part_000 line 177-180: `placedFigureIds` is one
set shared across all sections, so the placed set threads through the
sections in document order. -/
def layoutSectionsGo (figures : List ManuscriptFigure) :
    List RawSection → List Str → List Block × List Str
  | [], placed => ([], placed)
  | s :: ss, placed =>
    let o1 := injectFigures s.content figures placed
    let o2 := layoutSectionsGo figures ss o1.2
    (o1.1 ++ o2.1, o2.2)

/-- All sections' chunks and the final placed-id set. -/
def layoutSections (sections : List RawSection) (figures : List ManuscriptFigure) :
    List Block × List Str :=
  layoutSectionsGo figures sections []

/-- `remainingFigures` (part_000 line 182): the figures whose id was never
placed, in original figure order. -/
def additionalFigures (sections : List RawSection) (figures : List ManuscriptFigure) :
    List ManuscriptFigure :=
  figures.filter fun f => !((layoutSections sections figures).2.contains f.id)

/-- The document-level layout output: all sections' chunks followed by the
trailing additional-figures chunks. -/
def layoutDocument (sections : List RawSection) (figures : List ManuscriptFigure) :
    List Block :=
  (layoutSections sections figures).1 ++
    (additionalFigures sections figures).map .additionalFigure

/-- The figure id carried by a figure chunk, if any. -/
def figBlockId : Block → Option Str
  | .figureBlock f => some f.id
  | .additionalFigure f => some f.id
  | _ => none

/-- The ids of the figure chunks of a chunk list, in order. -/
def figIdsOf (bs : List Block) : List Str := bs.filterMap figBlockId

/-- The figure-block id sequence of the whole layout output. -/
def layoutFigIds (sections : List RawSection) (figures : List ManuscriptFigure) :
    List Str :=
  figIdsOf (layoutDocument sections figures)

/-- The classification text of a text chunk (the text against which its
figure citations were scanned). -/
def cleanOfBlock : Block → Str
  | .mainHeading t => t
  | .subHeading t => t
  | .equation t => t
  | .paragraph t => t
  | .htmlPart p => jsTrim (replTags false [] p)
  | .htmlEquation p => jsTrim (replTags false [] p)
  | .figureBlock _ => []
  | .additionalFigure _ => []

/-!
## Concrete instances used by counterexamples and witnesses
-/

/-- A JSON text truncated inside a string value, immediately after an
unescaped backslash. -/
def truncEscEx : Str := str "\x7b\"a\": \"b\\"

/-- A well-formed JSON document of which `truncEscEx` is a proper prefix. -/
def truncEscFull : Str := str "\x7b\"a\": \"b\\\"c\"\x7d"

/-- A JSON text truncated inside a string value at an ordinary character. -/
def truncPlainEx : Str := str "\x7b\"a\": \"b"

/-- A fixed environment standing for one wall-clock instant and one random
draw. -/
def env0 : Env := ⟨str "2025", str "11 October 2025", str "0042"⟩

/-- A parse oracle on which every text fails `JSON.parse` (e.g. the backend
returned prose). -/
def jsParseNone : Str → Option RawManuscript := fun _ => none

/-- A backend oracle that always answers with the unparseable text `"x"`
(note `attemptJsonRepair "x" = "x"`). -/
def oracleX : Str → Nat → BResp := fun _ _ => .ok (str "x")

/-- The JSON text `{"title":"T","authors":[]}`: well-formed, with a present
but empty authors array. -/
def emptyAuthorsJson : Str := str "\x7b\"title\":\"T\",\"authors\":[]\x7d"

/-- The object `JSON.parse` yields on `emptyAuthorsJson`. -/
def emptyAuthorsRaw : RawManuscript := { title := some (str "T"), authors := some [] }

/-- A parse oracle behaving as `JSON.parse` does on `emptyAuthorsJson` and
failing elsewhere. -/
def jsParseEmptyAuthors : Str → Option RawManuscript :=
  fun s => if s = emptyAuthorsJson then some emptyAuthorsRaw else none

/-- A backend oracle that always returns `emptyAuthorsJson`. -/
def oracleEmptyAuthors : Str → Nat → BResp := fun _ _ => .ok emptyAuthorsJson

/-- The document the client returns on the `emptyAuthorsJson` run. -/
def emptyAuthorsDoc : FinalDoc := finalizeData env0 emptyAuthorsRaw

/-- An extraction result that did populate a DOI (present, nonempty, not the
literal string "null"). -/
def parsedWithDoi : RawManuscript :=
  { title := some (str "T"), doi := some (str "10.1234/abc") }

/-- Figures 1 and 2 plus two distinct uncited figures sharing the id "3". -/
def figCEx : List ManuscriptFigure :=
  [⟨str "1", str "u1", str "c1"⟩, ⟨str "2", str "u2", str "c2"⟩,
   ⟨str "3", str "u3a", str "c3a"⟩, ⟨str "3", str "u3b", str "c3b"⟩]

/-- One section whose single paragraph cites Figure 1 and Figure 2. -/
def secCEx : List RawSection := [⟨str "Results", str "See Figure 1 and Figure 2."⟩]

/-- Distinct-id figures: 1 and 2 cited, 9 never cited. -/
def figWEx : List ManuscriptFigure :=
  [⟨str "1", str "u1", str "c1"⟩, ⟨str "2", str "u2", str "c2"⟩,
   ⟨str "9", str "u9", str "c9"⟩]

/-- A 150-character line satisfying every other equation condition. -/
def len150Eq : Str := '=' :: List.replicate 149 'a'

/-- A candidate block satisfying both the main-heading test and the equation
predicate, wrapped in paragraph markup. -/
def headingEqP : Str := str "<p>1. A = B</p>"

/-- The same candidate text without markup. -/
def headingEqPlain : Str := str "1. A = B"

/-- An original text whose normalization has no tokens (both words are too
short to survive the length filter). -/
def shortOrig : Str := str "ab cd"

/-- An arbitrary generated document with tokens. -/
def someGen : ValDoc := ⟨str "alpha beta", str "", [], [], []⟩

/-- An original text with two normalized tokens. -/
def twoTokOrig : Str := str "alpha beta"

/-- A generated document whose token set contains both tokens of
`twoTokOrig`. -/
def supersetGen : ValDoc := ⟨str "alpha beta gamma", str "", [], [], []⟩

/-!
## Theorems

Helper lemmas first, then one theorem (plus counterexample/witness where
applicable) per claim.
-/

theorem attemptStep_success {jsParse : Str → Option RawManuscript}
    {oracle : Str → Nat → BResp} {env : Env} {model : Str} {attempt : Nat}
    {lastErr : Option Str} {d : FinalDoc}
    (h : attemptStep jsParse oracle env model attempt lastErr = .success d) :
    ∃ p, d = finalizeData env p := by
  unfold attemptStep at h
  split at h
  · split_ifs at h
  · split at h
    · split at h
      · cases h
        exact ⟨_, rfl⟩
      · split at h
        · cases h
          exact ⟨_, rfl⟩
        · split_ifs at h
    · split_ifs at h

theorem modelRun_success {jsParse : Str → Option RawManuscript}
    {oracle : Str → Nat → BResp} {env : Env} {model : Str} {lastErr e : Option Str}
    {d : FinalDoc} {tr : List (Str × Nat)}
    (h : modelRun jsParse oracle env model lastErr = (some d, e, tr)) :
    ∃ p, d = finalizeData env p := by
  unfold modelRun at h
  rcases h1 : attemptStep jsParse oracle env model 1 lastErr with d1 | e1 | e1 <;>
    rw [h1] at h <;> dsimp only at h
  · cases h
    exact attemptStep_success h1
  · cases h
  · rcases h2 : attemptStep jsParse oracle env model 2 e1 with d2 | e2 | e2 <;>
      rw [h2] at h <;> dsimp only at h
    · cases h
      exact attemptStep_success h2
    · cases h
    · cases h

theorem goModels_success {jsParse : Str → Option RawManuscript}
    {oracle : Str → Nat → BResp} {env : Env} {d : FinalDoc} :
    ∀ {ms : List Str} {lastErr : Option Str} {tr : List (Str × Nat)},
      goModels jsParse oracle env ms lastErr = (.ok d, tr) →
      ∃ p, d = finalizeData env p := by
  intro ms
  induction ms with
  | nil => intro lastErr tr h; cases h
  | cons m ms ih =>
    intro lastErr tr h
    unfold goModels at h
    rcases hm : modelRun jsParse oracle env m lastErr with ⟨od, e, tr'⟩
    rw [hm] at h
    rcases od with _ | d'
    · dsimp only at h
      rcases hr : goModels jsParse oracle env ms e with ⟨res, tr''⟩
      rw [hr] at h
      have hres : res = .ok d := congrArg Prod.fst h
      exact ih (hr.trans (by rw [hres]))
    · dsimp only at h
      cases h
      exact modelRun_success hm

/-- C10: every document returned by a successful `parseManuscript` call —
direct parse or repaired recovery — has volume "3", issue "1", pages "1-12",
the current wall-clock year, and an empty figures sequence; figure or
volume/issue/pages values in the backend's JSON are discarded by
`finalizeData`. -/
theorem parseManuscript_fixed_metadata (jsParse : Str → Option RawManuscript)
    (oracle : Str → Nat → BResp) (env : Env) (d : FinalDoc) (tr : List (Str × Nat))
    (h : parseManuscript jsParse oracle env = (.ok d, tr)) :
    d.volume = str "3" ∧ d.issue = str "1" ∧ d.pages = str "1-12" ∧
    d.year = env.yearStr ∧ d.figures = [] := by
  obtain ⟨p, rfl⟩ := goModels_success h
  exact ⟨rfl, rfl, rfl, rfl, rfl⟩

/-- Witness for C10 at a concrete successful run. -/
theorem parseManuscript_fixed_metadata_witness :
    parseManuscript jsParseEmptyAuthors oracleEmptyAuthors env0 =
      (.ok emptyAuthorsDoc, [(flashModel, 1)]) ∧
    (emptyAuthorsDoc.volume = str "3" ∧ emptyAuthorsDoc.issue = str "1" ∧
     emptyAuthorsDoc.pages = str "1-12" ∧ emptyAuthorsDoc.year = env0.yearStr ∧
     emptyAuthorsDoc.figures = []) :=
  ⟨rfl, parseManuscript_fixed_metadata jsParseEmptyAuthors oracleEmptyAuthors env0
    emptyAuthorsDoc [(flashModel, 1)] rfl⟩

/-- C5 counterexample: an extraction result with a present, nonempty,
non-"null" DOI is not preserved: finalization replaces it with the
placeholder. -/
theorem finalizeData_discards_populated_doi :
    parsedWithDoi.doi = some (str "10.1234/abc") ∧
    str "10.1234/abc" ≠ [] ∧ str "10.1234/abc" ≠ str "null" ∧
    (finalizeData env0 parsedWithDoi).doi ≠ str "10.1234/abc" := by
  exact ⟨rfl, by decide, by decide, by decide⟩

/-- C5 (amended): finalization leaves the extraction-owned content fields
(title, authors, abstract, keywords, sections, references) unchanged, and
unconditionally overwrites every publication-metadata field with the pipeline
defaults — including any DOI the extraction populated. -/
theorem finalizeData_frame (env : Env) (parsed : RawManuscript) :
    (finalizeData env parsed).title = parsed.title ∧
    (finalizeData env parsed).authors = parsed.authors ∧
    (finalizeData env parsed).abstract = parsed.abstract ∧
    (finalizeData env parsed).keywords = parsed.keywords ∧
    (finalizeData env parsed).sections = parsed.sections ∧
    (finalizeData env parsed).references = parsed.references ∧
    (finalizeData env parsed).doi = doiPlaceholder ∧
    (finalizeData env parsed).volume = str "3" ∧
    (finalizeData env parsed).issue = str "1" ∧
    (finalizeData env parsed).year = env.yearStr ∧
    (finalizeData env parsed).pages = str "1-12" ∧
    (finalizeData env parsed).figures = [] :=
  ⟨rfl, rfl, rfl, rfl, rfl, rfl, rfl, rfl, rfl, rfl, rfl, rfl⟩

/-- C9 counterexample: a backend answer that parses directly with a present
but empty authors array is returned as a document with an empty authors
sequence — no author-count validation happens on the direct-parse path. -/
theorem parseManuscript_returns_empty_authors :
    (parseManuscript jsParseEmptyAuthors oracleEmptyAuthors env0).1 =
      .ok emptyAuthorsDoc ∧
    emptyAuthorsDoc.authors = some [] :=
  ⟨rfl, rfl⟩

/-- C9 (amended): the manual no-AI path always produces exactly one author,
and the repaired-recovery backfill inserts one placeholder author whenever the
authors field is absent; the direct-parse path performs no such check. -/
theorem manual_and_backfill_authors :
    (∀ env text, ∃ a, (createManualManuscript env text).authors = some [a]) ∧
    (∀ pr : RawManuscript, pr.authors = none →
      (backfillRecovered pr).authors =
        some [{ name := str "Unknown", affiliation := str "Unknown" }]) := by
  constructor
  · intro env text
    exact ⟨_, rfl⟩
  · intro pr h
    simp [backfillRecovered, h]

/-- Witness for C9's amended theorem at a concrete text and a concrete
authors-free recovered object. -/
theorem manual_and_backfill_authors_witness :
    (∃ a, (createManualManuscript env0 (str "Title line")).authors = some [a]) ∧
    ({ title := some (str "T") : RawManuscript }.authors = none ∧
      (backfillRecovered { title := some (str "T") }).authors =
        some [{ name := str "Unknown", affiliation := str "Unknown" }]) :=
  ⟨manual_and_backfill_authors.1 env0 (str "Title line"),
   rfl, manual_and_backfill_authors.2 { title := some (str "T") } rfl⟩

/-- C4 counterexample: when the first model's first answer fails both direct
parse and repaired parse, the client does not break to the next model: it
calls the same model again for attempt 2 (and advances only afterwards). -/
theorem repairFailure_retries_same_model :
    (parseManuscript jsParseNone oracleX env0).2 =
      [(flashModel, 1), (flashModel, 2), (proModel, 1)] ∧
    (flashModel, 2) ∈ (parseManuscript jsParseNone oracleX env0).2 ∧
    (parseManuscript jsParseNone oracleX env0).1 = .error tooLongMsg := by
  refine ⟨rfl, ?_, rfl⟩
  rw [show (parseManuscript jsParseNone oracleX env0).2 =
      [(flashModel, 1), (flashModel, 2), (proModel, 1)] from rfl]
  exact List.mem_cons_of_mem _ (List.mem_cons_self _ _)

/-- C4 (amended): a repair-parse failure is fatal for that model only in the
sense that it is swallowed: the client neither fails globally nor advances
immediately, but continues with the remaining attempt of the same model,
moving to the next candidate only after the per-model attempt budget; on the
last candidate model a repair failure raises the fatal message. -/
theorem repairFailure_continues_then_advances
    (jsParse : Str → Option RawManuscript) (oracle : Str → Nat → BResp) (env : Env)
    (t1 t2 t3 : Str)
    (h1 : oracle flashModel 1 = .ok t1) (n1 : t1 ≠ [])
    (p1 : jsParse (cleanFences t1) = none)
    (r1 : jsParse (attemptJsonRepair (cleanFences t1)) = none)
    (h2 : oracle flashModel 2 = .ok t2) (n2 : t2 ≠ [])
    (p2 : jsParse (cleanFences t2) = none)
    (r2 : jsParse (attemptJsonRepair (cleanFences t2)) = none)
    (h3 : oracle proModel 1 = .ok t3) (n3 : t3 ≠ [])
    (p3 : jsParse (cleanFences t3) = none)
    (r3 : jsParse (attemptJsonRepair (cleanFences t3)) = none) :
    parseManuscript jsParse oracle env =
      (.error tooLongMsg, [(flashModel, 1), (flashModel, 2), (proModel, 1)]) := by
  have hne : ¬ flashModel = proModel := by decide
  have hnil : ¬ tooLongMsg = [] := by decide
  simp [parseManuscript, goModels, modelRun, attemptStep, modelsToTry,
    h1, h2, h3, n1, n2, n3, p1, p2, p3, r1, r2, r3, hne, hnil, orDefault]

/-- Witness for C4's amended theorem at a concrete oracle. -/
theorem repairFailure_continues_then_advances_witness :
    oracleX flashModel 1 = .ok (str "x") ∧ (str "x" : Str) ≠ [] ∧
    jsParseNone (cleanFences (str "x")) = none ∧
    jsParseNone (attemptJsonRepair (cleanFences (str "x"))) = none ∧
    parseManuscript jsParseNone oracleX env0 =
      (.error tooLongMsg, [(flashModel, 1), (flashModel, 2), (proModel, 1)]) :=
  ⟨rfl, by decide, rfl, rfl,
   repairFailure_continues_then_advances jsParseNone oracleX env0
     (str "x") (str "x") (str "x") rfl (by decide) rfl rfl rfl (by decide)
     rfl rfl rfl (by decide) rfl rfl⟩

/-- C6 counterexample: when the normalized original has no tokens (here both
words are too short to survive the length filter), the generated token set is
trivially a superset, yet `coveragePercent` is 0, not 100. -/
theorem coverage_zero_despite_superset :
    (∀ w ∈ getWords shortOrig, w ∈ getWords (genContent someGen)) ∧
    coveragePercent shortOrig someGen = 0 ∧ (0 : ℤ) ≠ 100 := by
  refine ⟨by decide, ?_, by decide⟩
  decide

/-- C6 (amended): `coveragePercent` is an integer in `[0, 100]`; when the
normalized original has at least one token it equals
`min 100 (round (100 · foundCount / originalWordCount))` with `foundCount`
counting original token occurrences present in the generated token set, and
it is 100 whenever additionally the generated token set contains every
original token; when the original has no tokens it is 0. -/
theorem coveragePercent_props (original : Str) (g : ValDoc) :
    0 ≤ coveragePercent original g ∧ coveragePercent original g ≤ 100 ∧
    (getWords original ≠ [] →
      coveragePercent original g =
        min 100 ⌊(100 * (foundCount (getWords original) (getWords (genContent g)) : ℚ) /
          ((getWords original).length : ℚ)) + 1 / 2⌋) ∧
    (getWords original ≠ [] →
      (∀ w ∈ getWords original, w ∈ getWords (genContent g)) →
      coveragePercent original g = 100) ∧
    (getWords original = [] → coveragePercent original g = 0) := by
  have hcov : coveragePercent original g =
      min 100 (if 0 < (getWords original).length then
        ⌊(100 * (foundCount (getWords original) (getWords (genContent g)) : ℚ) /
          ((getWords original).length : ℚ)) + 1 / 2⌋
      else 0) := rfl
  rw [hcov]
  generalize getWords original = ow
  generalize getWords (genContent g) = gw
  refine ⟨?_, ?_, ?_, ?_, ?_⟩
  · split_ifs with hlen
    · refine le_min (by norm_num) ?_
      rw [Int.le_floor]
      push_cast
      positivity
    · simp
  · exact min_le_left _ _
  · intro hne
    rw [if_pos (List.length_pos.mpr hne)]
  · intro hne hsup
    have hfound : foundCount ow gw = ow.length := by
      unfold foundCount
      rw [List.filter_length_eq_length]
      intro a ha
      simpa [List.contains, List.elem_iff] using hsup a ha
    have hlen0 : ((ow.length : ℚ)) ≠ 0 := by
      exact_mod_cast Nat.pos_iff_ne_zero.mp (List.length_pos.mpr hne)
    rw [if_pos (List.length_pos.mpr hne), hfound]
    rw [show (100 : ℚ) * (ow.length : ℚ) / (ow.length : ℚ) = 100 by
      field_simp]
    norm_num
  · intro hemp
    rw [hemp]
    simp

/-- Witness for C6's amended theorem: a two-token original fully covered by
the generated text scores exactly 100. -/
theorem coveragePercent_props_witness :
    getWords twoTokOrig ≠ [] ∧
    (∀ w ∈ getWords twoTokOrig, w ∈ getWords (genContent supersetGen)) ∧
    coveragePercent twoTokOrig supersetGen = 100 :=
  ⟨by decide, by decide,
   (coveragePercent_props twoTokOrig supersetGen).2.2.2.1 (by decide) (by decide)⟩

set_option maxRecDepth 4000 in
/-- C7 counterexample: a 150-character block meeting every other condition is
classified as an equation, although 150 is outside the claimed interval
`[2, 150)`. -/
theorem isEquation_accepts_length_150 :
    isEquation len150Eq = true ∧ len150Eq.length = 150 := by
  constructor
  · decide
  · decide

/-- C7 (amended): a block is classified as an equation exactly when its
stripped-and-trimmed plain text has length in `[2, 150]` (the source rejects
only lengths strictly above 150), contains one of the math symbols, does not
start with "Figure" or "Table" (case-insensitively), and does not end with a
period; in particular `"E = mc²"` is an equation. -/
theorem isEquation_characterization :
    (∀ line : Str,
      isEquation line = true ↔
        (2 ≤ (jsTrim (replTags true [] line)).length ∧
         (jsTrim (replTags true [] line)).length ≤ 150 ∧
         ((jsTrim (replTags true [] line)).any fun c => mathChars.contains c) = true ∧
         startsFigTable (jsTrim (replTags true [] line)) = false ∧
         (jsTrim (replTags true [] line)).getLast? ≠ some '.')) ∧
    isEquation (str "E = mc²") = true := by
  constructor
  · intro line
    rw [isEquation]
    generalize jsTrim (replTags true [] line) = t
    split_ifs with hgt hlt
    · simp only [false_iff]
      rintro ⟨-, hle, -⟩
      omega
    · simp only [false_iff]
      rintro ⟨hge, -⟩
      omega
    · simp only [Bool.and_eq_true, Bool.not_eq_true']
      constructor
      · rintro ⟨⟨hany, hfig⟩, hdot⟩
        refine ⟨by omega, by omega, hany, hfig, ?_⟩
        intro hcon
        rw [hcon] at hdot
        simp at hdot
      · rintro ⟨-, -, hany, hfig, hdot⟩
        refine ⟨⟨hany, hfig⟩, ?_⟩
        rw [beq_eq_false_iff_ne]
        exact hdot
  · decide

theorem placeFigs_blocks_are_figures {figs : List ManuscriptFigure} :
    ∀ {ids placed : List Str} {b : Block}, b ∈ (placeFigs figs ids placed).1 →
      ∃ f, b = .figureBlock f := by
  intro ids
  induction ids with
  | nil => intro placed b h; cases h
  | cons id ids ih =>
    intro placed b h
    by_cases hmem : id ∈ placed
    · rw [placeFigs, if_pos hmem] at h
      exact ih h
    · rcases hf : figs.find? (fun f => f.id == id) with _ | f
      · simp only [placeFigs, if_neg hmem, hf] at h
        exact ih h
      · simp only [placeFigs, if_neg hmem, hf] at h
        rcases List.mem_cons.mp h with h | h
        · exact ⟨f, h⟩
        · exact ih h

theorem classifyPart_equation_tests {hasP : Bool} {part clean t : Str}
    (h : classifyPart hasP part clean = .equation t) :
    hasP = false ∧ t = clean ∧ isMainHeadingTest clean = false ∧
      isSubHeadingTest clean = false := by
  unfold classifyPart at h
  split_ifs at h
  all_goals simp_all

theorem classifyPart_mainHeading {part clean : Str}
    (h : isMainHeadingTest clean = true) :
    classifyPart false part clean = .mainHeading clean := by
  unfold classifyPart
  simp [h]

theorem partsBlocks_mem {hasP : Bool} {figs : List ManuscriptFigure} :
    ∀ {ps : List Str} {placed : List Str} {b : Block},
      b ∈ (partsBlocks hasP figs ps placed).1 →
      ∃ p ∈ ps, ∃ pl, b ∈ (partBlocks hasP figs p pl).1 := by
  intro ps
  induction ps with
  | nil => intro placed b h; cases h
  | cons p ps ih =>
    intro placed b h
    rw [partsBlocks] at h
    rcases List.mem_append.mp h with h1 | h2
    · exact ⟨p, List.mem_cons_self _ _, placed, h1⟩
    · obtain ⟨p', hp', pl, hb⟩ := ih h2
      exact ⟨p', List.mem_cons_of_mem _ hp', pl, hb⟩

theorem partBlocks_equation_tests {hasP : Bool} {figs : List ManuscriptFigure}
    {part : Str} {placed : List Str} {t : Str}
    (h : Block.equation t ∈ (partBlocks hasP figs part placed).1) :
    hasP = false ∧ isMainHeadingTest t = false ∧ isSubHeadingTest t = false := by
  simp only [partBlocks] at h
  split_ifs at h with hc
  · simp at h
  · rcases List.mem_cons.mp h with h | h
    · obtain ⟨hp, ht, hm, hs⟩ := classifyPart_equation_tests h.symm
      subst ht
      exact ⟨hp, hm, hs⟩
    · obtain ⟨f, hf⟩ := placeFigs_blocks_are_figures h
      cases hf

theorem partsBlocks_head_mem {hasP : Bool} {figs : List ManuscriptFigure} :
    ∀ {ps placed : List Str} {p : Str}, p ∈ ps →
      jsTrim (replTags false [] p) ≠ [] →
      classifyPart hasP p (jsTrim (replTags false [] p)) ∈
        (partsBlocks hasP figs ps placed).1 := by
  intro ps
  induction ps with
  | nil => intro placed p h; cases h
  | cons q ps ih =>
    intro placed p hp hc
    rw [partsBlocks]
    rcases List.mem_cons.mp hp with h | h
    · subst h
      refine List.mem_append.mpr (Or.inl ?_)
      rw [partBlocks, if_neg hc]
      exact List.mem_cons_self _ _
    · exact List.mem_append.mpr (Or.inr (ih h hc))

/-- C8 counterexample: in the paragraph-markup splitting mode a block that
satisfies both the main-heading test and the equation predicate is emitted as
an equation-styled chunk, not a heading — the markup mode never emits heading
blocks. -/
theorem ptag_mode_emits_equation_for_heading :
    isMainHeadingTest headingEqPlain = true ∧ isEquation headingEqPlain = true ∧
    (injectFigures headingEqP [] []).1 = [Block.htmlEquation headingEqP] := by
  refine ⟨by decide, by decide, by decide⟩

/-- C8 (amended): in the blank-line splitting mode the heading tests take
precedence over the equation test — every emitted equation block fails both
heading tests, and every candidate block passing the main-heading test is
emitted as a main-heading block; in the paragraph-markup mode blocks are never
classified as headings, and a block satisfying the equation predicate is
emitted with equation styling even when it also satisfies the heading test. -/
theorem blankMode_heading_beats_equation (content : Str)
    (figures : List ManuscriptFigure) (placed : List Str)
    (h : hasPTags content = false) :
    (∀ t, Block.equation t ∈ (injectFigures content figures placed).1 →
      isMainHeadingTest t = false ∧ isSubHeadingTest t = false) ∧
    (∀ p ∈ splitParts content, isMainHeadingTest (jsTrim (replTags false [] p)) = true →
      Block.mainHeading (jsTrim (replTags false [] p)) ∈
        (injectFigures content figures placed).1) := by
  constructor
  · intro t hmem
    rw [injectFigures, h] at hmem
    obtain ⟨p, -, pl, hb⟩ := partsBlocks_mem hmem
    obtain ⟨-, hm, hs⟩ := partBlocks_equation_tests hb
    exact ⟨hm, hs⟩
  · intro p hp hmain
    have hne : jsTrim (replTags false [] p) ≠ [] := by
      intro hcon
      rw [hcon] at hmain
      exact absurd hmain (by decide)
    rw [injectFigures, h]
    have := @partsBlocks_head_mem false figures _ placed _ hp hne
    rwa [classifyPart_mainHeading hmain] at this

/-- Witness for C8's amended theorem on a concrete blank-line-mode content. -/
theorem blankMode_heading_beats_equation_witness :
    hasPTags headingEqPlain = false ∧
    ((∀ t, Block.equation t ∈ (injectFigures headingEqPlain [] []).1 →
        isMainHeadingTest t = false ∧ isSubHeadingTest t = false) ∧
     (∀ p ∈ splitParts headingEqPlain,
        isMainHeadingTest (jsTrim (replTags false [] p)) = true →
        Block.mainHeading (jsTrim (replTags false [] p)) ∈
          (injectFigures headingEqPlain [] []).1)) :=
  ⟨by decide, blankMode_heading_beats_equation headingEqPlain [] [] (by decide)⟩

theorem dropWhile_cons_false {p : Char → Bool} {c : Char} {l : Str}
    (h : p c = false) : List.dropWhile p (c :: l) = c :: l := by
  simp [List.dropWhile_cons, h]

theorem dropWhile_self_idem (p : Char → Bool) (l : Str) :
    List.dropWhile p (List.dropWhile p l) = List.dropWhile p l := by
  induction l with
  | nil => rfl
  | cons c cs ih =>
    rw [List.dropWhile_cons]
    split_ifs with hc
    · exact ih
    · rw [dropWhile_cons_false (Bool.of_not_eq_true hc)]

theorem dropWhile_head_false {p : Char → Bool} {l : Str} :
    List.dropWhile p l = [] ∨
      ∃ c cs, List.dropWhile p l = c :: cs ∧ p c = false := by
  induction l with
  | nil => exact Or.inl rfl
  | cons c cs ih =>
    rw [List.dropWhile_cons]
    split_ifs with hc
    · exact ih
    · exact Or.inr ⟨c, cs, rfl, Bool.of_not_eq_true hc⟩

theorem trimLeft_idem (l : Str) : trimLeft (trimLeft l) = trimLeft l :=
  dropWhile_self_idem _ l

theorem trimRight_idem (l : Str) : trimRight (trimRight l) = trimRight l := by
  unfold trimRight
  rw [List.reverse_reverse, dropWhile_self_idem]

theorem trimRight_cons_of_head_false {c : Char} {l : Str}
    (h : isWsChar c = false) : trimRight (c :: l) = c :: trimRight l := by
  unfold trimRight
  rw [List.reverse_cons, List.dropWhile_append]
  split_ifs with hd
  · rw [List.isEmpty_iff] at hd
    rw [hd, show List.dropWhile isWsChar [c] = [c] from dropWhile_cons_false h]
    simp
  · simp

theorem trimLeft_trimRight_of_fix {m : Str} (h : trimLeft m = m) :
    trimLeft (trimRight m) = trimRight m := by
  have h' : List.dropWhile isWsChar m = m := h
  rcases @dropWhile_head_false isWsChar m with hnil | ⟨c, cs, heq, hc⟩
  · rw [h'] at hnil
    subst hnil
    rfl
  · rw [h'] at heq
    subst heq
    rw [trimRight_cons_of_head_false hc]
    exact dropWhile_cons_false hc

theorem jsTrim_trimLeft_fix (s : Str) : trimLeft (jsTrim s) = jsTrim s :=
  trimLeft_trimRight_of_fix (trimLeft_idem s)

theorem jsTrim_trimRight_fix (s : Str) : trimRight (jsTrim s) = jsTrim s :=
  trimRight_idem (trimLeft s)

theorem trimLeft_append_of_fix {m : Str} (h : trimLeft m = m) (u : Str)
    (hu : ∀ c ∈ u, isWsChar c = false) : trimLeft (m ++ u) = m ++ u := by
  have h' : List.dropWhile isWsChar m = m := h
  rcases @dropWhile_head_false isWsChar m with hnil | ⟨c, cs, heq, hc⟩
  · rw [h'] at hnil
    subst hnil
    rw [List.nil_append]
    rcases u with _ | ⟨d, ds⟩
    · rfl
    · exact dropWhile_cons_false (hu d (List.mem_cons_self _ _))
  · rw [h'] at heq
    subst heq
    exact dropWhile_cons_false hc

theorem trimRight_append_of_fix {m : Str} (h : trimRight m = m) (u : Str)
    (hu : ∀ c ∈ u, isWsChar c = false) : trimRight (m ++ u) = m ++ u := by
  rcases List.eq_nil_or_concat u with rfl | ⟨v, c, rfl⟩
  · rw [List.append_nil, h]
  · have hc : isWsChar c = false := hu c (by simp)
    rw [List.concat_eq_append, ← List.append_assoc]
    unfold trimRight
    rw [List.reverse_append (m ++ v) [c]]
    rw [show ([c] : Str).reverse ++ (m ++ v).reverse = c :: (m ++ v).reverse from rfl]
    rw [dropWhile_cons_false hc]
    simp

theorem jsTrim_append_fix (s u : Str) (hu : ∀ c ∈ u, isWsChar c = false) :
    jsTrim (jsTrim s ++ u) = jsTrim s ++ u := by
  show trimRight (trimLeft (jsTrim s ++ u)) = jsTrim s ++ u
  rw [trimLeft_append_of_fix (jsTrim_trimLeft_fix s) u hu]
  exact trimRight_append_of_fix (jsTrim_trimRight_fix s) u hu

theorem qstep_closer {s : QS} {c : Char} (h : c = '}' ∨ c = ']') :
    qstep s c = ⟨s.cnt, false⟩ := by
  rcases h with rfl | rfl <;> rfl

theorem foldl_qstep_closers {K : Str} :
    ∀ {s : QS}, (∀ c ∈ K, c = '}' ∨ c = ']') →
      (List.foldl qstep s K).cnt = s.cnt := by
  induction K with
  | nil => intro s _; rfl
  | cons c cs ih =>
    intro s h
    rw [List.foldl_cons, qstep_closer (h c (List.mem_cons_self _ _))]
    exact ih fun x hx => h x (List.mem_cons_of_mem _ hx)

theorem qscan_append_quote {l : Str} (h : (qscan l).esc = false) :
    qscan (l ++ ['\"']) = ⟨(qscan l).cnt + 1, false⟩ := by
  unfold qscan at *
  rw [List.foldl_append, List.foldl_cons, List.foldl_nil]
  unfold qstep
  rw [if_neg (by simp), if_pos ⟨rfl, h⟩]

theorem step_rel {q : QS} {b : BS} {c : Char} (he : b.esc = q.esc)
    (hi : b.inStr = true ↔ q.cnt % 2 = 1) :
    (bstep b c).esc = (qstep q c).esc ∧
      ((bstep b c).inStr = true ↔ (qstep q c).cnt % 2 = 1) := by
  by_cases h1 : c = '\\' ∧ b.esc = false
  · have h1' : c = '\\' ∧ q.esc = false := ⟨h1.1, by rw [← he]; exact h1.2⟩
    simp only [bstep, qstep, if_pos h1, if_pos h1']
    exact ⟨by trivial, hi⟩
  · have h1' : ¬(c = '\\' ∧ q.esc = false) := fun hcon =>
      h1 ⟨hcon.1, by rw [he]; exact hcon.2⟩
    by_cases h2 : c = '\"' ∧ b.esc = false
    · have h2' : c = '\"' ∧ q.esc = false := ⟨h2.1, by rw [← he]; exact h2.2⟩
      simp only [bstep, qstep, if_neg h1, if_neg h1', if_pos h2, if_pos h2']
      refine ⟨by trivial, ?_⟩
      show (!b.inStr) = true ↔ (q.cnt + 1) % 2 = 1
      rcases hb : b.inStr with _ | _
      · rw [hb] at hi
        simp at hi ⊢
        omega
      · rw [hb] at hi
        simp at hi ⊢
        omega
    · have h2' : ¬(c = '\"' ∧ q.esc = false) := fun hcon =>
        h2 ⟨hcon.1, by rw [he]; exact hcon.2⟩
      simp only [bstep, qstep, if_neg h1, if_neg h1', if_neg h2, if_neg h2']
      exact ⟨by trivial, hi⟩

theorem foldl_scan_rel {l : Str} :
    ∀ {q : QS} {b : BS}, b.esc = q.esc → (b.inStr = true ↔ q.cnt % 2 = 1) →
      (List.foldl bstep b l).esc = (List.foldl qstep q l).esc ∧
        ((List.foldl bstep b l).inStr = true ↔
          (List.foldl qstep q l).cnt % 2 = 1) := by
  induction l with
  | nil => intro q b he hi; exact ⟨he, hi⟩
  | cons c cs ih =>
    intro q b he hi
    rw [List.foldl_cons, List.foldl_cons]
    obtain ⟨he', hi'⟩ := step_rel he hi
    exact ih he' hi'

theorem bscan_esc_eq (l : Str) : (bscan l).esc = (qscan l).esc :=
  (foldl_scan_rel rfl (by simp)).1

theorem bscan_inStr_iff (l : Str) :
    (bscan l).inStr = true ↔ (qscan l).cnt % 2 = 1 :=
  (foldl_scan_rel rfl (by simp)).2

theorem bstep_stack_cases (b : BS) (c : Char) :
    (bstep b c).stack = '}' :: b.stack ∨ (bstep b c).stack = ']' :: b.stack ∨
      (bstep b c).stack = b.stack ∨
      ∃ e K, b.stack = e :: K ∧ (bstep b c).stack = K := by
  unfold bstep
  by_cases h1 : c = '\\' ∧ b.esc = false
  · rw [if_pos h1]
    exact Or.inr (Or.inr (Or.inl rfl))
  · rw [if_neg h1]
    dsimp only
    by_cases h2 : (if c = '\"' ∧ b.esc = false then !b.inStr else b.inStr) = false ∧
        b.esc = false
    · rw [if_pos h2]
      by_cases h3 : c = '{'
      · rw [if_pos h3]
        exact Or.inl rfl
      · rw [if_neg h3]
        by_cases h4 : c = '['
        · rw [if_pos h4]
          exact Or.inr (Or.inl rfl)
        · rw [if_neg h4]
          by_cases h5 : c = '}' ∨ c = ']'
          · rw [if_pos h5]
            rcases hb : b.stack with _ | ⟨e, K⟩
            · exact Or.inr (Or.inr (Or.inl rfl))
            · dsimp only
              by_cases h6 : c = e
              · rw [if_pos h6]
                exact Or.inr (Or.inr (Or.inr ⟨e, K, rfl, rfl⟩))
              · rw [if_neg h6]
                exact Or.inr (Or.inr (Or.inl rfl))
          · rw [if_neg h5]
            exact Or.inr (Or.inr (Or.inl rfl))
    · rw [if_neg h2]
      exact Or.inr (Or.inr (Or.inl rfl))

theorem bstep_stack_closers {b : BS} {c : Char}
    (h : ∀ x ∈ b.stack, x = '}' ∨ x = ']') :
    ∀ x ∈ (bstep b c).stack, x = '}' ∨ x = ']' := by
  rcases bstep_stack_cases b c with hc | hc | hc | ⟨e, K, hb, hc⟩ <;> rw [hc]
  · intro x hx
    rcases List.mem_cons.mp hx with rfl | hx
    · exact Or.inl rfl
    · exact h x hx
  · intro x hx
    rcases List.mem_cons.mp hx with rfl | hx
    · exact Or.inr rfl
    · exact h x hx
  · exact h
  · intro x hx
    exact h x (by rw [hb]; exact List.mem_cons_of_mem _ hx)

theorem foldl_bstep_stack_closers {l : Str} :
    ∀ {b : BS}, (∀ x ∈ b.stack, x = '}' ∨ x = ']') →
      ∀ x ∈ (List.foldl bstep b l).stack, x = '}' ∨ x = ']' := by
  induction l with
  | nil => intro b h; exact h
  | cons c cs ih =>
    intro b h
    rw [List.foldl_cons]
    exact ih (bstep_stack_closers h)

theorem bscan_stack_closers (l : Str) :
    ∀ x ∈ (bscan l).stack, x = '}' ∨ x = ']' :=
  foldl_bstep_stack_closers (by simp)

theorem bstep_closer_pop {e : Char} {K : List Char} (h : e = '}' ∨ e = ']') :
    bstep ⟨e :: K, false, false⟩ e = ⟨K, false, false⟩ := by
  rcases h with rfl | rfl <;> rfl

theorem foldl_bstep_pop_all {K : List Char} :
    (∀ x ∈ K, x = '}' ∨ x = ']') →
    List.foldl bstep ⟨K, false, false⟩ K = ⟨[], false, false⟩ := by
  induction K with
  | nil => intro _; rfl
  | cons e K ih =>
    intro h
    rw [List.foldl_cons, bstep_closer_pop (h e (List.mem_cons_self _ _))]
    exact ih fun x hx => h x (List.mem_cons_of_mem _ hx)

theorem repair_unfold (s : Str) :
    attemptJsonRepair s =
      (if (qscan (jsTrim s)).cnt % 2 ≠ 0 then jsTrim s ++ ['\"'] else jsTrim s) ++
        (bscan (if (qscan (jsTrim s)).cnt % 2 ≠ 0 then jsTrim s ++ ['\"']
          else jsTrim s)).stack := rfl

theorem repair_fix (r1 : Str)
    (htrim : jsTrim (r1 ++ (bscan r1).stack) = r1 ++ (bscan r1).stack)
    (hev : (qscan r1).cnt % 2 = 0)
    (hstr : (bscan r1).inStr = false) (hesc : (bscan r1).esc = false) :
    attemptJsonRepair (r1 ++ (bscan r1).stack) = r1 ++ (bscan r1).stack := by
  have hKcl : ∀ x ∈ (bscan r1).stack, x = '}' ∨ x = ']' := bscan_stack_closers r1
  have hq : (qscan (r1 ++ (bscan r1).stack)).cnt = (qscan r1).cnt := by
    unfold qscan
    rw [List.foldl_append]
    exact foldl_qstep_closers hKcl
  have hbK : bscan r1 = ⟨(bscan r1).stack, false, false⟩ := by
    rcases hbs : bscan r1 with ⟨st, i, e⟩
    rw [hbs] at hstr hesc
    dsimp only at hstr hesc
    rw [hstr, hesc]
  have hb : bscan (r1 ++ (bscan r1).stack) = ⟨[], false, false⟩ := by
    unfold bscan
    rw [List.foldl_append]
    rw [show List.foldl bstep ⟨[], false, false⟩ r1 =
      (⟨(bscan r1).stack, false, false⟩ : BS) from hbK]
    exact foldl_bstep_pop_all hKcl
  rw [repair_unfold (r1 ++ (bscan r1).stack), htrim]
  have hnot : ¬ ((qscan (r1 ++ (bscan r1).stack)).cnt % 2 ≠ 0) := by
    rw [hq]
    omega
  rw [if_neg hnot, hb]
  simp

/-- C2 counterexample: `{"a": "b\` is a proper prefix of the well-formed JSON
document `{"a": "b\"c"}` (truncated inside a string value, right after an
unescaped backslash), yet applying the structural repair twice differs from
applying it once: the first pass appends a quote that the second pass counts
as escaped. -/
theorem attemptJsonRepair_not_idempotent :
    TruncatedWellFormedJson truncEscEx ∧
    attemptJsonRepair (attemptJsonRepair truncEscEx) ≠ attemptJsonRepair truncEscEx := by
  refine ⟨⟨truncEscFull, str "\"c\"\x7d", by decide, by decide, by decide⟩, by decide⟩

/-- C2 (amended): the structural repair is idempotent on every input whose
trimmed form does not end in the middle of an escape sequence — that is,
whenever the quote-scan's escape flag is clear at the end of the trimmed
input (every truncation point not immediately following an unescaped
backslash satisfies this). -/
theorem attemptJsonRepair_idem (s : Str)
    (h : (qscan (jsTrim s)).esc = false) :
    attemptJsonRepair (attemptJsonRepair s) = attemptJsonRepair s := by
  by_cases hodd : (qscan (jsTrim s)).cnt % 2 ≠ 0
  · have hq1 : qscan (jsTrim s ++ ['\"']) = ⟨(qscan (jsTrim s)).cnt + 1, false⟩ :=
      qscan_append_quote h
    have hev : (qscan (jsTrim s ++ ['\"'])).cnt % 2 = 0 := by
      rw [hq1]
      show ((qscan (jsTrim s)).cnt + 1) % 2 = 0
      omega
    have hesc : (bscan (jsTrim s ++ ['\"'])).esc = false := by
      rw [bscan_esc_eq, hq1]
    have hstr : (bscan (jsTrim s ++ ['\"'])).inStr = false := by
      rcases hx : (bscan (jsTrim s ++ ['\"'])).inStr with _ | _
      · rfl
      · exfalso
        have h2 := (bscan_inStr_iff (jsTrim s ++ ['\"'])).mp hx
        rw [hq1] at h2
        have h3 : ((qscan (jsTrim s)).cnt + 1) % 2 = 1 := h2
        omega
    have htrim : jsTrim ((jsTrim s ++ ['\"']) ++ (bscan (jsTrim s ++ ['\"'])).stack) =
        (jsTrim s ++ ['\"']) ++ (bscan (jsTrim s ++ ['\"'])).stack := by
      rw [List.append_assoc]
      refine jsTrim_append_fix s _ ?_
      intro c hc
      rcases List.mem_append.mp hc with hc | hc
      · rcases List.mem_singleton.mp hc with rfl
        rfl
      · rcases bscan_stack_closers _ c hc with rfl | rfl <;> rfl
    have hrepair : attemptJsonRepair s =
        (jsTrim s ++ ['\"']) ++ (bscan (jsTrim s ++ ['\"'])).stack := by
      rw [repair_unfold s, if_pos hodd]
    rw [hrepair]
    exact repair_fix _ htrim hev hstr hesc
  · have hev : (qscan (jsTrim s)).cnt % 2 = 0 := by omega
    have hesc : (bscan (jsTrim s)).esc = false := by
      rw [bscan_esc_eq]
      exact h
    have hstr : (bscan (jsTrim s)).inStr = false := by
      rcases hx : (bscan (jsTrim s)).inStr with _ | _
      · rfl
      · exfalso
        have h2 := (bscan_inStr_iff (jsTrim s)).mp hx
        omega
    have htrim : jsTrim (jsTrim s ++ (bscan (jsTrim s)).stack) =
        jsTrim s ++ (bscan (jsTrim s)).stack := by
      refine jsTrim_append_fix s _ ?_
      intro c hc
      rcases bscan_stack_closers _ c hc with rfl | rfl <;> rfl
    have hrepair : attemptJsonRepair s =
        jsTrim s ++ (bscan (jsTrim s)).stack := by
      rw [repair_unfold s, if_neg hodd]
    rw [hrepair]
    exact repair_fix _ htrim hev hstr hesc

/-- Witness for C2's amended theorem: a JSON text truncated inside a string
value at an ordinary character satisfies the hypothesis and repair is
idempotent on it. -/
theorem attemptJsonRepair_idem_witness :
    (qscan (jsTrim truncPlainEx)).esc = false ∧
    attemptJsonRepair (attemptJsonRepair truncPlainEx) = attemptJsonRepair truncPlainEx :=
  ⟨by decide, attemptJsonRepair_idem truncPlainEx (by decide)⟩

/-- C3: for every input string, the repair output is the trimmed input
followed by exactly one closing quote when the bracket scan of the trimmed
input ends inside a string (equivalently, when the unescaped-quote count is
odd), followed by only closing braces/brackets — the expected-closer stack of
the scan, innermost (most recently opened) first.  Existing content is never
altered or deleted. -/
theorem attemptJsonRepair_appends_only_closers (s : Str) :
    ∃ cl : List Char,
      cl.all (fun c => c == '}' || c == ']') = true ∧
      cl = (bscan (jsTrim s ++
        (if (bscan (jsTrim s)).inStr = true then ['\"'] else []))).stack ∧
      attemptJsonRepair s =
        jsTrim s ++ (if (bscan (jsTrim s)).inStr = true then ['\"'] else []) ++ cl := by
  have hiff : ((qscan (jsTrim s)).cnt % 2 ≠ 0) ↔ ((bscan (jsTrim s)).inStr = true) := by
    constructor
    · intro hchk
      exact (bscan_inStr_iff _).mpr (by omega)
    · intro hstr
      have := (bscan_inStr_iff _).mp hstr
      omega
  by_cases hodd : (qscan (jsTrim s)).cnt % 2 ≠ 0
  · refine ⟨(bscan (jsTrim s ++ ['\"'])).stack, ?_, ?_, ?_⟩
    · rw [List.all_eq_true]
      intro c hc
      rcases bscan_stack_closers _ c hc with rfl | rfl <;> rfl
    · rw [if_pos (hiff.mp hodd)]
    · rw [repair_unfold s, if_pos hodd, if_pos (hiff.mp hodd), List.append_assoc]
  · refine ⟨(bscan (jsTrim s)).stack, ?_, ?_, ?_⟩
    · rw [List.all_eq_true]
      intro c hc
      rcases bscan_stack_closers _ c hc with rfl | rfl <;> rfl
    · rw [if_neg fun hcon => hodd (hiff.mpr hcon), List.append_nil]
    · rw [repair_unfold s, if_neg hodd, if_neg fun hcon => hodd (hiff.mpr hcon),
        List.append_nil]

theorem figIdsOf_nil : figIdsOf [] = [] := rfl

theorem figIdsOf_cons_figure (f : ManuscriptFigure) (bs : List Block) :
    figIdsOf (Block.figureBlock f :: bs) = f.id :: figIdsOf bs := rfl

theorem classifyPart_figBlockId (hasP : Bool) (part clean : Str) :
    figBlockId (classifyPart hasP part clean) = none := by
  unfold classifyPart
  split_ifs <;> rfl

theorem classifyPart_cleanOf (hasP : Bool) (part : Str) :
    cleanOfBlock (classifyPart hasP part (jsTrim (replTags false [] part))) =
      jsTrim (replTags false [] part) := by
  unfold classifyPart
  split_ifs <;> rfl

theorem figIdsOf_cons_of_none {b : Block} (h : figBlockId b = none)
    (bs : List Block) : figIdsOf (b :: bs) = figIdsOf bs := by
  unfold figIdsOf
  rw [List.filterMap_cons, h]

theorem figIdsOf_append (b1 b2 : List Block) :
    figIdsOf (b1 ++ b2) = figIdsOf b1 ++ figIdsOf b2 :=
  List.filterMap_append _ _ _

theorem placeFigs_spec (figs : List ManuscriptFigure) :
    ∀ (ids placed : List Str),
      (placeFigs figs ids placed).2 =
        (figIdsOf (placeFigs figs ids placed).1).reverse ++ placed ∧
      (figIdsOf (placeFigs figs ids placed).1).Nodup ∧
      (∀ x ∈ figIdsOf (placeFigs figs ids placed).1, x ∉ placed) ∧
      (∀ b ∈ (placeFigs figs ids placed).1,
        ∃ f, b = Block.figureBlock f ∧ f ∈ figs ∧ f.id ∈ ids) := by
  intro ids
  induction ids with
  | nil =>
    intro placed
    exact ⟨rfl, List.nodup_nil, by simp [placeFigs, figIdsOf_nil], by simp [placeFigs]⟩
  | cons id ids ih =>
    intro placed
    by_cases hmem : id ∈ placed
    · have heq : placeFigs figs (id :: ids) placed = placeFigs figs ids placed := by
        rw [placeFigs, if_pos hmem]
      rw [heq]
      obtain ⟨h1, h2, h3, h4⟩ := ih placed
      refine ⟨h1, h2, h3, fun b hb => ?_⟩
      obtain ⟨f, e, m, i⟩ := h4 b hb
      exact ⟨f, e, m, List.mem_cons_of_mem _ i⟩
    · rcases hf : figs.find? (fun f => f.id == id) with _ | f
      · have heq : placeFigs figs (id :: ids) placed = placeFigs figs ids placed := by
          simp only [placeFigs, if_neg hmem, hf]
        rw [heq]
        obtain ⟨h1, h2, h3, h4⟩ := ih placed
        refine ⟨h1, h2, h3, fun b hb => ?_⟩
        obtain ⟨f, e, m, i⟩ := h4 b hb
        exact ⟨f, e, m, List.mem_cons_of_mem _ i⟩
      · have heq : placeFigs figs (id :: ids) placed =
            (Block.figureBlock f :: (placeFigs figs ids (id :: placed)).1,
             (placeFigs figs ids (id :: placed)).2) := by
          simp only [placeFigs, if_neg hmem, hf]
        obtain ⟨h1, h2, h3, h4⟩ := ih (id :: placed)
        have hfid : f.id = id := by
          have := List.find?_some hf
          simpa using this
        have hfmem : f ∈ figs := List.mem_of_find?_eq_some hf
        rw [heq]
        refine ⟨?_, ?_, ?_, ?_⟩
        · show (placeFigs figs ids (id :: placed)).2 = _
          rw [h1, figIdsOf_cons_figure, hfid, List.reverse_cons, List.append_assoc]
          rfl
        · rw [figIdsOf_cons_figure]
          refine List.nodup_cons.mpr ⟨?_, h2⟩
          intro hcon
          exact h3 f.id hcon (by rw [hfid]; exact List.mem_cons_self _ _)
        · rw [figIdsOf_cons_figure]
          intro x hx
          rcases List.mem_cons.mp hx with rfl | hx
          · rw [hfid]
            exact hmem
          · intro hcon
            exact h3 x hx (List.mem_cons_of_mem _ hcon)
        · intro b hb
          rcases List.mem_cons.mp hb with rfl | hb
          · exact ⟨f, rfl, hfmem, by rw [hfid]; exact List.mem_cons_self _ _⟩
          · obtain ⟨g, e, m, i⟩ := h4 b hb
            exact ⟨g, e, m, List.mem_cons_of_mem _ i⟩

theorem partBlocks_inv (hasP : Bool) (figs : List ManuscriptFigure)
    (part : Str) (placed : List Str) :
    (partBlocks hasP figs part placed).2 =
      (figIdsOf (partBlocks hasP figs part placed).1).reverse ++ placed ∧
    (figIdsOf (partBlocks hasP figs part placed).1).Nodup ∧
    (∀ x ∈ figIdsOf (partBlocks hasP figs part placed).1, x ∉ placed) ∧
    (∀ x ∈ figIdsOf (partBlocks hasP figs part placed).1, ∃ f ∈ figs, f.id = x) := by
  by_cases hc : jsTrim (replTags false [] part) = []
  · have heq : partBlocks hasP figs part placed = ([], placed) := by
      rw [partBlocks, if_pos hc]
    rw [heq]
    exact ⟨rfl, List.nodup_nil, by simp [figIdsOf_nil], by simp [figIdsOf_nil]⟩
  · have heq : partBlocks hasP figs part placed =
        (classifyPart hasP part (jsTrim (replTags false [] part)) ::
          (placeFigs figs (findCitations (jsTrim (replTags false [] part))) placed).1,
         (placeFigs figs (findCitations (jsTrim (replTags false [] part))) placed).2) := by
      simp only [partBlocks, if_neg hc]
    obtain ⟨h1, h2, h3, h4⟩ :=
      placeFigs_spec figs (findCitations (jsTrim (replTags false [] part))) placed
    rw [heq]
    rw [show figIdsOf (classifyPart hasP part (jsTrim (replTags false [] part)) ::
        (placeFigs figs (findCitations (jsTrim (replTags false [] part))) placed).1) =
        figIdsOf (placeFigs figs (findCitations (jsTrim (replTags false [] part))) placed).1
      from figIdsOf_cons_of_none (classifyPart_figBlockId _ _ _) _]
    refine ⟨h1, h2, h3, fun x hx => ?_⟩
    obtain ⟨b, hb, hbx⟩ := List.mem_filterMap.mp hx
    obtain ⟨f, rfl, hm, -⟩ := h4 b hb
    refine ⟨f, hm, ?_⟩
    have : some f.id = some x := hbx
    exact Option.some_injective _ this

theorem inv_comp {figs : List ManuscriptFigure} {b1 b2 : List Block}
    {p0 p1 p2 : List Str}
    (h1 : p1 = (figIdsOf b1).reverse ++ p0) (h1n : (figIdsOf b1).Nodup)
    (h1d : ∀ x ∈ figIdsOf b1, x ∉ p0) (h1f : ∀ x ∈ figIdsOf b1, ∃ f ∈ figs, f.id = x)
    (h2 : p2 = (figIdsOf b2).reverse ++ p1) (h2n : (figIdsOf b2).Nodup)
    (h2d : ∀ x ∈ figIdsOf b2, x ∉ p1) (h2f : ∀ x ∈ figIdsOf b2, ∃ f ∈ figs, f.id = x) :
    p2 = (figIdsOf (b1 ++ b2)).reverse ++ p0 ∧ (figIdsOf (b1 ++ b2)).Nodup ∧
    (∀ x ∈ figIdsOf (b1 ++ b2), x ∉ p0) ∧
    (∀ x ∈ figIdsOf (b1 ++ b2), ∃ f ∈ figs, f.id = x) := by
  have hmem1 : ∀ x ∈ figIdsOf b1, x ∈ p1 := by
    intro x hx
    rw [h1]
    exact List.mem_append.mpr (Or.inl (List.mem_reverse.mpr hx))
  refine ⟨?_, ?_, ?_, ?_⟩
  · rw [figIdsOf_append, List.reverse_append, List.append_assoc, ← h1]
    exact h2
  · rw [figIdsOf_append]
    refine List.nodup_append.mpr ⟨h1n, h2n, ?_⟩
    intro x hx1 hx2
    exact h2d x hx2 (hmem1 x hx1)
  · rw [figIdsOf_append]
    intro x hx
    rcases List.mem_append.mp hx with hx | hx
    · exact h1d x hx
    · intro hcon
      exact h2d x hx (by rw [h1]; exact List.mem_append.mpr (Or.inr hcon))
  · rw [figIdsOf_append]
    intro x hx
    rcases List.mem_append.mp hx with hx | hx
    · exact h1f x hx
    · exact h2f x hx

theorem partsBlocks_inv (hasP : Bool) (figs : List ManuscriptFigure) :
    ∀ (ps : List Str) (placed : List Str),
      (partsBlocks hasP figs ps placed).2 =
        (figIdsOf (partsBlocks hasP figs ps placed).1).reverse ++ placed ∧
      (figIdsOf (partsBlocks hasP figs ps placed).1).Nodup ∧
      (∀ x ∈ figIdsOf (partsBlocks hasP figs ps placed).1, x ∉ placed) ∧
      (∀ x ∈ figIdsOf (partsBlocks hasP figs ps placed).1, ∃ f ∈ figs, f.id = x) := by
  intro ps
  induction ps with
  | nil =>
    intro placed
    refine ⟨rfl, List.nodup_nil, ?_, ?_⟩
    · intro x hx
      exact absurd hx (List.not_mem_nil x)
    · intro x hx
      exact absurd hx (List.not_mem_nil x)
  | cons p ps ih =>
    intro placed
    have heq : partsBlocks hasP figs (p :: ps) placed =
        ((partBlocks hasP figs p placed).1 ++
           (partsBlocks hasP figs ps (partBlocks hasP figs p placed).2).1,
         (partsBlocks hasP figs ps (partBlocks hasP figs p placed).2).2) := by
      simp only [partsBlocks]
    obtain ⟨a1, a2, a3, a4⟩ := partBlocks_inv hasP figs p placed
    obtain ⟨c1, c2, c3, c4⟩ := ih (partBlocks hasP figs p placed).2
    rw [heq]
    exact inv_comp a1 a2 a3 a4 c1 c2 c3 c4

theorem layoutGo_inv (figs : List ManuscriptFigure) :
    ∀ (secs : List RawSection) (placed : List Str),
      (layoutSectionsGo figs secs placed).2 =
        (figIdsOf (layoutSectionsGo figs secs placed).1).reverse ++ placed ∧
      (figIdsOf (layoutSectionsGo figs secs placed).1).Nodup ∧
      (∀ x ∈ figIdsOf (layoutSectionsGo figs secs placed).1, x ∉ placed) ∧
      (∀ x ∈ figIdsOf (layoutSectionsGo figs secs placed).1, ∃ f ∈ figs, f.id = x) := by
  intro secs
  induction secs with
  | nil =>
    intro placed
    refine ⟨rfl, List.nodup_nil, ?_, ?_⟩
    · intro x hx
      exact absurd hx (List.not_mem_nil x)
    · intro x hx
      exact absurd hx (List.not_mem_nil x)
  | cons s ss ih =>
    intro placed
    have heq : layoutSectionsGo figs (s :: ss) placed =
        ((injectFigures s.content figs placed).1 ++
           (layoutSectionsGo figs ss (injectFigures s.content figs placed).2).1,
         (layoutSectionsGo figs ss (injectFigures s.content figs placed).2).2) := by
      simp only [layoutSectionsGo]
    obtain ⟨a1, a2, a3, a4⟩ :=
      partsBlocks_inv (hasPTags s.content) figs (splitParts s.content) placed
    obtain ⟨c1, c2, c3, c4⟩ := ih (injectFigures s.content figs placed).2
    rw [heq]
    exact inv_comp a1 a2 a3 a4 c1 c2 c3 c4

theorem placeFigs_complete (figs : List ManuscriptFigure) :
    ∀ (ids placed : List Str), ∀ id ∈ ids, (∃ f ∈ figs, f.id = id) →
      id ∈ (placeFigs figs ids placed).2 := by
  intro ids
  induction ids with
  | nil =>
    intro placed id hid _
    exact absurd hid (List.not_mem_nil id)
  | cons i is ih =>
    intro placed id hid hex
    by_cases hi : i ∈ placed
    · have heq : placeFigs figs (i :: is) placed = placeFigs figs is placed := by
        rw [placeFigs, if_pos hi]
      rw [heq]
      rcases List.mem_cons.mp hid with heqid | hid'
      · rw [heqid, (placeFigs_spec figs is placed).1]
        exact List.mem_append.mpr (Or.inr hi)
      · exact ih placed id hid' hex
    · cases hf : figs.find? (fun f => f.id == i) with
      | some f =>
        have heq : placeFigs figs (i :: is) placed =
            (Block.figureBlock f :: (placeFigs figs is (i :: placed)).1,
             (placeFigs figs is (i :: placed)).2) := by
          simp only [placeFigs, if_neg hi, hf]
        rw [heq]
        rcases List.mem_cons.mp hid with heqid | hid'
        · rw [heqid]
          show i ∈ (placeFigs figs is (i :: placed)).2
          rw [(placeFigs_spec figs is (i :: placed)).1]
          exact List.mem_append.mpr (Or.inr (List.mem_cons_self i placed))
        · exact ih (i :: placed) id hid' hex
      | none =>
        have heq : placeFigs figs (i :: is) placed = placeFigs figs is placed := by
          simp only [placeFigs, if_neg hi, hf]
        rw [heq]
        rcases List.mem_cons.mp hid with heqid | hid'
        · obtain ⟨f, hfin, hfid⟩ := hex
          have hbeq : (f.id == i) = true := by simp [hfid, heqid]
          exact absurd hbeq (List.find?_eq_none.mp hf f hfin)
        · exact ih placed id hid' hex

theorem partBlocks_segs (hasP : Bool) (figs : List ManuscriptFigure)
    (part : Str) (placed : List Str) :
    (partBlocks hasP figs part placed).1 = [] ∨
    ∃ tb fbs, (partBlocks hasP figs part placed).1 = tb :: fbs ∧
      figBlockId tb = none ∧
      (∀ b ∈ fbs, ∃ f, b = Block.figureBlock f ∧ f ∈ figs ∧
        f.id ∈ findCitations (cleanOfBlock tb) ∧ f.id ∉ placed) ∧
      (∀ id ∈ findCitations (cleanOfBlock tb), (∃ f ∈ figs, f.id = id) →
        id ∈ (partBlocks hasP figs part placed).2) := by
  by_cases hc : jsTrim (replTags false [] part) = []
  · left
    rw [partBlocks, if_pos hc]
  · right
    have heqp : partBlocks hasP figs part placed =
        (classifyPart hasP part (jsTrim (replTags false [] part)) ::
          (placeFigs figs (findCitations (jsTrim (replTags false [] part))) placed).1,
         (placeFigs figs (findCitations (jsTrim (replTags false [] part))) placed).2) := by
      simp only [partBlocks, if_neg hc]
    refine ⟨classifyPart hasP part (jsTrim (replTags false [] part)),
      (placeFigs figs (findCitations (jsTrim (replTags false [] part))) placed).1,
      by rw [heqp], classifyPart_figBlockId _ _ _, ?_, ?_⟩
    · intro b hb
      obtain ⟨f, e, m, i⟩ := (placeFigs_spec figs _ placed).2.2.2 b hb
      refine ⟨f, e, m, ?_, ?_⟩
      · rw [classifyPart_cleanOf]
        exact i
      · have hfid : f.id ∈ figIdsOf
            (placeFigs figs (findCitations (jsTrim (replTags false [] part))) placed).1 :=
          List.mem_filterMap.mpr ⟨b, hb, by rw [e]; rfl⟩
        exact (placeFigs_spec figs _ placed).2.2.1 f.id hfid
    · intro id hid hex
      rw [heqp]
      rw [classifyPart_cleanOf] at hid
      exact placeFigs_complete figs _ placed id hid hex

theorem partsBlocks_segs (hasP : Bool) (figs : List ManuscriptFigure) :
    ∀ (ps : List Str) (placed : List Str),
      ∃ segs : List (Block × List Block),
        (partsBlocks hasP figs ps placed).1 =
          List.flatten (segs.map fun sg => sg.1 :: sg.2) ∧
        ∀ pre sg post, segs = pre ++ sg :: post →
          figBlockId sg.1 = none ∧
          (∀ b ∈ sg.2, ∃ f, b = Block.figureBlock f ∧ f ∈ figs ∧
            f.id ∈ findCitations (cleanOfBlock sg.1) ∧ f.id ∉ placed ∧
            ∀ sg' ∈ pre, f.id ∉ findCitations (cleanOfBlock sg'.1)) ∧
          (∀ id ∈ findCitations (cleanOfBlock sg.1), (∃ f ∈ figs, f.id = id) →
            id ∈ (partsBlocks hasP figs ps placed).2) := by
  intro ps
  induction ps with
  | nil =>
    intro placed
    refine ⟨[], rfl, ?_⟩
    intro pre sg post h
    cases pre <;> simp at h
  | cons p ps ih =>
    intro placed
    obtain ⟨segs2, hs2, hp2⟩ := ih (partBlocks hasP figs p placed).2
    have heq : (partsBlocks hasP figs (p :: ps) placed).1 =
        (partBlocks hasP figs p placed).1 ++
          (partsBlocks hasP figs ps (partBlocks hasP figs p placed).2).1 := by
      simp only [partsBlocks]
    have heq2 : (partsBlocks hasP figs (p :: ps) placed).2 =
        (partsBlocks hasP figs ps (partBlocks hasP figs p placed).2).2 := by
      simp only [partsBlocks]
    have hmono1 : ∀ x ∈ placed, x ∈ (partBlocks hasP figs p placed).2 := by
      intro x hx
      rw [(partBlocks_inv hasP figs p placed).1]
      exact List.mem_append.mpr (Or.inr hx)
    have hmono2 : ∀ x ∈ (partBlocks hasP figs p placed).2,
        x ∈ (partsBlocks hasP figs ps (partBlocks hasP figs p placed).2).2 := by
      intro x hx
      rw [(partsBlocks_inv hasP figs ps (partBlocks hasP figs p placed).2).1]
      exact List.mem_append.mpr (Or.inr hx)
    rcases partBlocks_segs hasP figs p placed with h0 | ⟨tb, fbs, h0, htb, hfbs, hcomp⟩
    · have hpl : (partBlocks hasP figs p placed).2 = placed := by
        rw [(partBlocks_inv hasP figs p placed).1, h0]
        rfl
      refine ⟨segs2, ?_, ?_⟩
      · rw [heq, h0, List.nil_append, hs2]
      · intro pre sg post hdec
        obtain ⟨ha, hb, hcompAll⟩ := hp2 pre sg post hdec
        refine ⟨ha, ?_, ?_⟩
        · intro b hbm
          obtain ⟨f, e, m, i, np, hpre⟩ := hb b hbm
          rw [hpl] at np
          exact ⟨f, e, m, i, np, hpre⟩
        · intro id hid hex
          rw [heq2]
          exact hcompAll id hid hex
    · refine ⟨(tb, fbs) :: segs2, ?_, ?_⟩
      · rw [heq, h0, hs2]
        rfl
      · intro pre sg post hdec
        cases pre with
        | nil =>
          simp only [List.nil_append] at hdec
          obtain ⟨h1, h2⟩ := List.cons.inj hdec
          cases h1
          refine ⟨htb, ?_, ?_⟩
          · intro b hbm
            obtain ⟨f, e, m, i, np⟩ := hfbs b hbm
            exact ⟨f, e, m, i, np, fun sg' h => absurd h (List.not_mem_nil sg')⟩
          · intro id hid hex
            rw [heq2]
            exact hmono2 id (hcomp id hid hex)
        | cons q pre' =>
          rw [List.cons_append] at hdec
          obtain ⟨h1, h2⟩ := List.cons.inj hdec
          obtain ⟨ha, hb, hcompAll⟩ := hp2 pre' sg post h2
          refine ⟨ha, ?_, ?_⟩
          · intro b hbm
            obtain ⟨f, e, m, i, np1, hpre'⟩ := hb b hbm
            refine ⟨f, e, m, i, fun hmem => np1 (hmono1 f.id hmem), ?_⟩
            intro sg' hsg'
            rcases List.mem_cons.mp hsg' with rfl | hsg'
            · rw [← h1]
              intro hcit
              exact np1 (hcomp f.id hcit ⟨f, m, rfl⟩)
            · exact hpre' sg' hsg'
          · intro id hid hex
            rw [heq2]
            exact hcompAll id hid hex

theorem layoutGo_segs (figs : List ManuscriptFigure) :
    ∀ (secs : List RawSection) (placed : List Str),
      ∃ segs : List (Block × List Block),
        (layoutSectionsGo figs secs placed).1 =
          List.flatten (segs.map fun sg => sg.1 :: sg.2) ∧
        ∀ pre sg post, segs = pre ++ sg :: post →
          figBlockId sg.1 = none ∧
          (∀ b ∈ sg.2, ∃ f, b = Block.figureBlock f ∧ f ∈ figs ∧
            f.id ∈ findCitations (cleanOfBlock sg.1) ∧ f.id ∉ placed ∧
            ∀ sg' ∈ pre, f.id ∉ findCitations (cleanOfBlock sg'.1)) ∧
          (∀ id ∈ findCitations (cleanOfBlock sg.1), (∃ f ∈ figs, f.id = id) →
            id ∈ (layoutSectionsGo figs secs placed).2) := by
  intro secs
  induction secs with
  | nil =>
    intro placed
    refine ⟨[], rfl, ?_⟩
    intro pre sg post h
    cases pre <;> simp at h
  | cons s ss ih =>
    intro placed
    obtain ⟨segs1, hs1, hp1⟩ :=
      partsBlocks_segs (hasPTags s.content) figs (splitParts s.content) placed
    obtain ⟨segs2, hs2, hp2⟩ := ih (injectFigures s.content figs placed).2
    have heq : (layoutSectionsGo figs (s :: ss) placed).1 =
        (injectFigures s.content figs placed).1 ++
          (layoutSectionsGo figs ss (injectFigures s.content figs placed).2).1 := by
      simp only [layoutSectionsGo]
    have heq2 : (layoutSectionsGo figs (s :: ss) placed).2 =
        (layoutSectionsGo figs ss (injectFigures s.content figs placed).2).2 := by
      simp only [layoutSectionsGo]
    have hmono1 : ∀ x ∈ placed, x ∈ (injectFigures s.content figs placed).2 := by
      intro x hx
      show x ∈ (partsBlocks (hasPTags s.content) figs (splitParts s.content) placed).2
      rw [(partsBlocks_inv (hasPTags s.content) figs (splitParts s.content) placed).1]
      exact List.mem_append.mpr (Or.inr hx)
    have hmono2 : ∀ x ∈ (injectFigures s.content figs placed).2,
        x ∈ (layoutSectionsGo figs ss (injectFigures s.content figs placed).2).2 := by
      intro x hx
      rw [(layoutGo_inv figs ss (injectFigures s.content figs placed).2).1]
      exact List.mem_append.mpr (Or.inr hx)
    have hcit1 : ∀ x ∈ segs1, ∀ id ∈ findCitations (cleanOfBlock x.1),
        (∃ f ∈ figs, f.id = id) → id ∈ (injectFigures s.content figs placed).2 := by
      intro x hx id hid hex
      obtain ⟨u, v, huv⟩ := List.append_of_mem hx
      exact ((hp1 u x v huv).2.2) id hid hex
    refine ⟨segs1 ++ segs2, ?_, ?_⟩
    · rw [heq, hs2, List.map_append, List.flatten_append]
      congr 1
    · intro pre sg post hdec
      rcases List.append_eq_append_iff.mp hdec with ⟨a', hpre, hs2d⟩ | ⟨c', hs1d, hcd⟩
      · obtain ⟨ha, hb2, hcomp2⟩ := hp2 a' sg post hs2d
        refine ⟨ha, ?_, ?_⟩
        · intro b hbm
          obtain ⟨f, e, m, i, np1, hpre2⟩ := hb2 b hbm
          refine ⟨f, e, m, i, fun hmem => np1 (hmono1 f.id hmem), ?_⟩
          intro sg' hsg'
          rw [hpre] at hsg'
          rcases List.mem_append.mp hsg' with h1 | h1
          · intro hcit
            exact np1 (hcit1 sg' h1 f.id hcit ⟨f, m, rfl⟩)
          · exact hpre2 sg' h1
        · intro id hid hex
          rw [heq2]
          exact hcomp2 id hid hex
      · cases c' with
        | nil =>
          rw [List.append_nil] at hs1d
          simp only [List.nil_append] at hcd
          obtain ⟨ha, hb2, hcomp2⟩ := hp2 [] sg post hcd.symm
          refine ⟨ha, ?_, ?_⟩
          · intro b hbm
            obtain ⟨f, e, m, i, np1, -⟩ := hb2 b hbm
            refine ⟨f, e, m, i, fun hmem => np1 (hmono1 f.id hmem), ?_⟩
            intro sg' hsg'
            rw [← hs1d] at hsg'
            intro hcit
            exact np1 (hcit1 sg' hsg' f.id hcit ⟨f, m, rfl⟩)
          · intro id hid hex
            rw [heq2]
            exact hcomp2 id hid hex
        | cons q c'' =>
          rw [List.cons_append] at hcd
          obtain ⟨h1, h2⟩ := List.cons.inj hcd
          rw [← h1] at hs1d
          obtain ⟨ha, hb1, hcomp1⟩ := hp1 pre sg c'' hs1d
          refine ⟨ha, hb1, ?_⟩
          intro id hid hex
          rw [heq2]
          exact hmono2 id (hcomp1 id hid hex)

theorem figIdsOf_map_additional (l : List ManuscriptFigure) :
    figIdsOf (l.map Block.additionalFigure) = l.map ManuscriptFigure.id := by
  induction l with
  | nil => rfl
  | cons f fs ih =>
    simp only [List.map_cons, figIdsOf, List.filterMap_cons]
    rw [show figBlockId (Block.additionalFigure f) = some f.id from rfl]
    rw [show List.filterMap figBlockId (List.map Block.additionalFigure fs) =
      figIdsOf (fs.map Block.additionalFigure) from rfl, ih]

theorem contains_iff_memStr (l : List Str) (x : Str) :
    l.contains x = true ↔ x ∈ l := by
  simp [List.contains, List.elem_iff]

/-- C1 counterexample: with figures 1 and 2 cited in one paragraph and two
uncited figures sharing the id "3", the output figure-block id sequence is
["1","2","3","3"] — the id "3" appears twice — and the figure block for
Figure 2 is separated from the text block containing its first citation by
the figure block for Figure 1, so it is not emitted immediately after it. -/
theorem layout_duplicate_id_and_nonadjacent_figure :
    (layoutFigIds secCEx figCEx).count (str "3") = 2 ∧
    layoutDocument secCEx figCEx =
      [Block.paragraph (str "See Figure 1 and Figure 2."),
       Block.figureBlock ⟨str "1", str "u1", str "c1"⟩,
       Block.figureBlock ⟨str "2", str "u2", str "c2"⟩,
       Block.additionalFigure ⟨str "3", str "u3a", str "c3a"⟩,
       Block.additionalFigure ⟨str "3", str "u3b", str "c3b"⟩] := by
  constructor
  · decide
  · decide

/-- C1 (amended): provided the document's figure ids are pairwise distinct,
every figure appears exactly once in the layout output's figure-block
sequence (a permutation of the figure ids); the placed-id set is threaded
across sections in document order starting empty; the body decomposes into
segments, each one text chunk followed by figure blocks whose figures are
drawn from the figure list and whose ids are cited (per the
Figure/Fig-number pattern) in that text chunk's classification text but in
no earlier text chunk of the document — so each placed figure block follows
the text chunk containing its id's first citation; and the figures never
placed appear exactly once each in the trailing additional-figures block,
in original figure order (a sublist of the figure list). -/
theorem layout_figure_placement (sections : List RawSection)
    (figures : List ManuscriptFigure)
    (h : (figures.map ManuscriptFigure.id).Nodup) :
    (layoutFigIds sections figures).Nodup ∧
    (layoutFigIds sections figures).Perm (figures.map ManuscriptFigure.id) ∧
    (additionalFigures sections figures).Sublist figures ∧
    ∃ segs : List (Block × List Block),
      layoutDocument sections figures =
        List.flatten (segs.map fun sg => sg.1 :: sg.2) ++
          (additionalFigures sections figures).map Block.additionalFigure ∧
      ∀ pre sg post, segs = pre ++ sg :: post →
        figBlockId sg.1 = none ∧
        ∀ b ∈ sg.2, ∃ f, b = Block.figureBlock f ∧ f ∈ figures ∧
          f.id ∈ findCitations (cleanOfBlock sg.1) ∧
          ∀ sg' ∈ pre, f.id ∉ findCitations (cleanOfBlock sg'.1) := by
  obtain ⟨i1, i2, i3, i4⟩ := layoutGo_inv figures sections []
  rw [List.append_nil] at i1
  have hbodyIds : ∀ x : Str, x ∈ (layoutSectionsGo figures sections []).2 ↔
      x ∈ figIdsOf (layoutSectionsGo figures sections []).1 := by
    intro x
    rw [i1, List.mem_reverse]
  have haddeq : additionalFigures sections figures =
      figures.filter
        (fun f => !((layoutSectionsGo figures sections []).2.contains f.id)) := rfl
  have hlayoutIds : layoutFigIds sections figures =
      figIdsOf (layoutSectionsGo figures sections []).1 ++
        (additionalFigures sections figures).map ManuscriptFigure.id := by
    show figIdsOf ((layoutSections sections figures).1 ++
      (additionalFigures sections figures).map Block.additionalFigure) = _
    rw [figIdsOf_append, figIdsOf_map_additional]
    rfl
  have hAddSub : (additionalFigures sections figures).Sublist figures := by
    rw [haddeq]
    exact List.filter_sublist _
  have hAddIdsSub :
      ((additionalFigures sections figures).map ManuscriptFigure.id).Sublist
        (figures.map ManuscriptFigure.id) := hAddSub.map _
  have hAddNodup :
      ((additionalFigures sections figures).map ManuscriptFigure.id).Nodup :=
    h.sublist hAddIdsSub
  have hdisj : ∀ x ∈ figIdsOf (layoutSectionsGo figures sections []).1,
      x ∉ (additionalFigures sections figures).map ManuscriptFigure.id := by
    intro x hx hmem
    obtain ⟨f, hf, rfl⟩ := List.mem_map.mp hmem
    rw [haddeq] at hf
    obtain ⟨hfin, hfp⟩ := List.mem_filter.mp hf
    have hcf : (layoutSectionsGo figures sections []).2.contains f.id = false := by
      rcases hcc : (layoutSectionsGo figures sections []).2.contains f.id with _ | _
      · rfl
      · rw [hcc] at hfp
        cases hfp
    have hxin : f.id ∈ (layoutSectionsGo figures sections []).2 :=
      (hbodyIds f.id).mpr hx
    rw [← contains_iff_memStr, hcf] at hxin
    cases hxin
  have hNodupTotal : (layoutFigIds sections figures).Nodup := by
    rw [hlayoutIds, List.nodup_append]
    exact ⟨i2, hAddNodup, fun a ha hb => hdisj a ha hb⟩
  have hsub1 : ∀ x ∈ layoutFigIds sections figures,
      x ∈ figures.map ManuscriptFigure.id := by
    rw [hlayoutIds]
    intro x hx
    rcases List.mem_append.mp hx with hx | hx
    · obtain ⟨f, hf, hfx⟩ := i4 x hx
      exact List.mem_map.mpr ⟨f, hf, hfx⟩
    · exact hAddIdsSub.subset hx
  have hsub2 : ∀ x ∈ figures.map ManuscriptFigure.id,
      x ∈ layoutFigIds sections figures := by
    rw [hlayoutIds]
    intro x hx
    obtain ⟨f, hf, rfl⟩ := List.mem_map.mp hx
    rcases hcf : (layoutSectionsGo figures sections []).2.contains f.id with _ | _
    · refine List.mem_append.mpr (Or.inr ?_)
      refine List.mem_map.mpr ⟨f, ?_, rfl⟩
      rw [haddeq]
      refine List.mem_filter.mpr ⟨hf, ?_⟩
      rw [hcf]
      rfl
    · refine List.mem_append.mpr (Or.inl ?_)
      exact (hbodyIds f.id).mp ((contains_iff_memStr _ _).mp hcf)
  have hPerm : (layoutFigIds sections figures).Perm (figures.map ManuscriptFigure.id) :=
    (List.subperm_of_subset hNodupTotal hsub1).antisymm
      (List.subperm_of_subset h hsub2)
  obtain ⟨segs, hsegs, hsegp⟩ := layoutGo_segs figures sections []
  refine ⟨hNodupTotal, hPerm, hAddSub, segs, ?_, ?_⟩
  · show (layoutSections sections figures).1 ++
        (additionalFigures sections figures).map Block.additionalFigure = _
    rw [show (layoutSections sections figures).1 =
      (layoutSectionsGo figures sections []).1 from rfl, hsegs]
  · intro pre sg post hdec
    obtain ⟨ha, hb, -⟩ := hsegp pre sg post hdec
    refine ⟨ha, ?_⟩
    intro b hbm
    obtain ⟨f, e, m, i, -, hpre⟩ := hb b hbm
    exact ⟨f, e, m, i, hpre⟩

/-- Witness for C1's amended theorem: one cited pair of figures plus one
uncited figure, all with distinct ids. -/
theorem layout_figure_placement_witness :
    (figWEx.map ManuscriptFigure.id).Nodup ∧
    ((layoutFigIds secCEx figWEx).Nodup ∧
     (layoutFigIds secCEx figWEx).Perm (figWEx.map ManuscriptFigure.id) ∧
     (additionalFigures secCEx figWEx).Sublist figWEx ∧
     ∃ segs : List (Block × List Block),
       layoutDocument secCEx figWEx =
         List.flatten (segs.map fun sg => sg.1 :: sg.2) ++
           (additionalFigures secCEx figWEx).map Block.additionalFigure ∧
       ∀ pre sg post, segs = pre ++ sg :: post →
         figBlockId sg.1 = none ∧
         ∀ b ∈ sg.2, ∃ f, b = Block.figureBlock f ∧ f ∈ figWEx ∧
           f.id ∈ findCitations (cleanOfBlock sg.1) ∧
           ∀ sg' ∈ pre, f.id ∉ findCitations (cleanOfBlock sg'.1)) :=
  ⟨by decide, layout_figure_placement secCEx figWEx (by decide)⟩

end JBSH





